import Mathlib

/-!
# Verification of the Vibecraft voxel world core

A shallow embedding of the repository's core subsystems, translated from the
JavaScript source:

* `noise.js` (`SeededRandom`): the linear-congruential random stream.
  JavaScript's `& 0x7fffffff` of the 32-bit-converted product is modelled as
  the nonnegative residue modulo `2^31` (exact integer arithmetic; IEEE-double
  rounding of huge intermediate products is abstracted away).
* `greedy-mesh.js` (`GreedyMesher.createMeshGeometry` and `addQuad`): bounds,
  per-slice visibility masks, the greedy rectangle covering, and geometry
  assembly.  String keys `"x,y,z"` are modelled as integer triples (the key
  map is injective on integer coordinates).
* `world.js` (`World`): the sparse block store (a JavaScript `Map` modelled as
  an association list with the same insertion-order semantics), chunked
  terrain generation, tree decoration, chunk streaming and unloading, and the
  block mutation operations.  The floating-point octave noise feeding
  `generateChunk` is abstracted as an integer-valued height-function
  parameter `hf` standing for `Math.floor(8 + octaveNoise2D(...) * 12)`;
  everything downstream of it is translated exactly.

All definitions are executable; rational arithmetic replaces JavaScript
doubles where values stay small enough to be exact (documented at each site).
-/

namespace Vibecraft

/-- Block types appearing in the repository (`world.js` materials plus the
snow/sand/plank/brick types referenced by `weather.js`, plus the
water/glass types the specification speaks about). -/
inductive BlockType where
  | stone | dirt | grass | wood | leaves | sand | water | glass | snow | plank | brick
  deriving DecidableEq, Repr

/-- Integer voxel coordinate `(x, y, z)`; `getBlockKey` floors its inputs, so
integer triples are exactly the key space. -/
abbrev Coord := ℤ × ℤ × ℤ

/-! ## Block store (`this.blocks`, a JavaScript `Map`)

Modelled as an association list in insertion order: `Map.set` on a fresh key
appends, `Map.set` on a present key updates in place, `Map.delete` removes
the entry.  `get`/`has`/`size` are the observations the code uses. -/

/-- The block store: insertion-ordered association list from coordinate to
block type (the stored record `{x, y, z, type}` is keyed by its own
coordinates, so we keep only the type as payload). -/
abbrev Store := List (Coord × BlockType)

/-- `Map.get`: the payload at a key, if present. -/
def Store.get (s : Store) (c : Coord) : Option BlockType :=
  (s.find? (fun p => p.1 = c)).map (·.2)

/-- `Map.has`. -/
def Store.hasKey (s : Store) (c : Coord) : Bool :=
  s.any (fun p => p.1 = c)

/-- `Map.set` (overwrite-or-insert, as used by `setBlockData`). -/
def Store.set (s : Store) (c : Coord) (t : BlockType) : Store :=
  if s.hasKey c then s.map (fun p => if p.1 = c then (c, t) else p)
  else s ++ [(c, t)]

/-- Insert-only write (`addBlockData`): `if (!this.blocks.has(key)) set`. -/
def Store.setIfAbsent (s : Store) (c : Coord) (t : BlockType) : Store :=
  if s.hasKey c then s else s ++ [(c, t)]

/-- `Map.delete`. -/
def Store.erase (s : Store) (c : Coord) : Store :=
  s.filter (fun p => ¬ p.1 = c)

/-- `Map.size` (`getBlockCount`). -/
def Store.count (s : Store) : ℕ := s.length

/-- Key uniqueness: the invariant a JavaScript `Map` provides for free. -/
def Store.KeysNodup (s : Store) : Prop := (s.map (·.1)).Nodup

/-! ### Store lemmas -/

@[simp] theorem Store.get_nil (c : Coord) : Store.get [] c = none := rfl

theorem Store.get_cons (p : Coord × BlockType) (ps : Store) (c : Coord) :
    Store.get (p :: ps) c = if p.1 = c then some p.2 else Store.get ps c := by
  unfold Store.get
  by_cases h : p.1 = c
  · rw [List.find?_cons_of_pos _ (by simpa using h), if_pos h]
    rfl
  · rw [List.find?_cons_of_neg _ (by simpa using h), if_neg h]

@[simp] theorem Store.hasKey_nil (c : Coord) : Store.hasKey [] c = false := rfl

theorem Store.hasKey_cons (p : Coord × BlockType) (ps : Store) (c : Coord) :
    Store.hasKey (p :: ps) c = (decide (p.1 = c) || ps.hasKey c) := by
  unfold Store.hasKey
  simp [List.any_cons]

theorem Store.get_append (s₁ s₂ : Store) (c : Coord) :
    Store.get (s₁ ++ s₂) c =
      if (Store.get s₁ c).isSome then Store.get s₁ c else Store.get s₂ c := by
  induction s₁ with
  | nil => simp
  | cons p ps ih =>
    rw [List.cons_append, Store.get_cons, Store.get_cons]
    by_cases h : p.1 = c
    · simp [h]
    · simp only [if_neg h]
      exact ih

theorem Store.hasKey_iff_get (s : Store) (c : Coord) :
    s.hasKey c = true ↔ (s.get c).isSome = true := by
  induction s with
  | nil => simp
  | cons p ps ih =>
    rw [Store.hasKey_cons, Store.get_cons]
    by_cases h : p.1 = c
    · simp [h]
    · simp [h, ih]

theorem Store.hasKey_false_get (s : Store) (c : Coord) (h : s.hasKey c = false) :
    s.get c = none := by
  cases hg : s.get c with
  | none => rfl
  | some t =>
    have : s.hasKey c = true := (Store.hasKey_iff_get s c).mpr (by simp [hg])
    rw [this] at h
    cases h

/-- In-place update of every entry keyed `c` (the `Map.set` overwrite path). -/
theorem Store.get_mapUpdate (s : Store) (c c' : Coord) (t : BlockType) :
    Store.get (s.map (fun p => if p.1 = c then (c, t) else p)) c' =
      if c' = c then (if s.hasKey c then some t else none) else s.get c' := by
  induction s with
  | nil => by_cases hc : c' = c <;> simp [hc]
  | cons p ps ih =>
    rw [List.map_cons]
    by_cases hp : p.1 = c
    · rw [if_pos hp, Store.get_cons, Store.get_cons, Store.hasKey_cons]
      by_cases hc : c' = c
      · simp [hc, hp]
      · have hpc : ¬ p.1 = c' := by rw [hp]; exact Ne.symm hc
        simp only [if_neg hc, if_neg (show ¬ (c, t).1 = c' from Ne.symm hc), if_neg hpc]
        simpa [hc] using ih
    · rw [if_neg hp, Store.get_cons, Store.get_cons, Store.hasKey_cons, ih]
      by_cases hc : c' = c
      · subst hc
        simp [hp]
      · simp [hc]

/-- Master lemma for `Map.set`: the observable effect on `get`. -/
theorem Store.get_set (s : Store) (c c' : Coord) (t : BlockType) :
    (s.set c t).get c' = if c' = c then some t else s.get c' := by
  unfold Store.set
  by_cases hk : s.hasKey c = true
  · rw [if_pos hk, Store.get_mapUpdate, hk]
    simp
  · rw [if_neg hk, Store.get_append]
    by_cases hc : c' = c
    · subst hc
      rw [Store.hasKey_false_get s c' (by simpa using hk)]
      simp [Store.get_cons]
    · simp only [if_neg hc]
      cases hg : s.get c' with
      | some u => simp
      | none => simp [Store.get_cons, Ne.symm hc]

/-- Master lemma for the insert-only write. -/
theorem Store.get_setIfAbsent (s : Store) (c c' : Coord) (t : BlockType) :
    (s.setIfAbsent c t).get c' =
      if c' = c ∧ s.hasKey c = false then some t else s.get c' := by
  unfold Store.setIfAbsent
  by_cases hk : s.hasKey c = true
  · simp [hk]
  · rw [if_neg hk, Store.get_append]
    by_cases hc : c' = c
    · subst hc
      rw [Store.hasKey_false_get s c' (by simpa using hk)]
      simp [Store.get_cons, hk, Bool.eq_false_iff.mpr hk]
    · simp only [if_neg (by simp [hc] : ¬ (c' = c ∧ s.hasKey c = false))]
      cases hg : s.get c' with
      | some u => simp
      | none => simp [Store.get_cons, Ne.symm hc]

/-- The insert-only write never changes an already-present entry. -/
theorem Store.get_setIfAbsent_of_isSome (s : Store) (c c' : Coord) (t : BlockType)
    (h : (s.get c').isSome) : (s.setIfAbsent c t).get c' = s.get c' := by
  rw [Store.get_setIfAbsent]
  by_cases hc : c' = c
  · subst hc
    have : s.hasKey c' = true := (Store.hasKey_iff_get s c').mpr h
    simp [this]
  · simp [hc]

/-- Master lemma for `Map.delete`. -/
theorem Store.get_erase (s : Store) (c c' : Coord) :
    (s.erase c).get c' = if c' = c then none else s.get c' := by
  unfold Store.erase
  induction s with
  | nil => simp
  | cons p ps ih =>
    by_cases hp : p.1 = c
    · rw [List.filter_cons_of_neg (by simpa using hp), ih, Store.get_cons]
      by_cases hc : c' = c
      · simp [hc]
      · have hpc : ¬ p.1 = c' := by rw [hp]; exact Ne.symm hc
        simp [hc, hpc]
    · rw [List.filter_cons_of_pos (by simpa using hp), Store.get_cons, Store.get_cons, ih]
      by_cases hc : c' = c
      · have hpc : ¬ p.1 = c' := by rw [hc]; exact hp
        simp [hc, hpc, hp]
      · simp [hc]

/-! ## `SeededRandom` (`noise.js`)

```js
next() {
    this.seed = (this.seed * 1103515245 + 12345) & 0x7fffffff;
    return (this.seed >>> 0) / 0x7fffffff;
}
nextInt(min, max) { return Math.floor(this.next() * (max - min)) + min; }
```

`& 0x7fffffff` of the 32-bit-converted value is the nonnegative residue
modulo `2^31` (exact for products below `2^53`; we idealise it for all
seeds).  The updated seed is therefore in `[0, 2^31)`, `>>> 0` is the
identity on it, and the returned value is the rational `seed / (2^31 - 1)`
(note the divisor is the mask `0x7fffffff = 2^31 - 1`, not `2^31`). -/

/-- The LCG state transition of `SeededRandom.next`. -/
def lcgStep (s : ℤ) : ℤ := (s * 1103515245 + 12345) % 2147483648

/-- `SeededRandom`: the mutable `this.seed`, threaded explicitly. -/
structure Rng where
  seed : ℤ
  deriving DecidableEq, Repr

/-- `next()`: advance the state one step and return state `/ 0x7fffffff`. -/
def Rng.next (r : Rng) : Rng × ℚ :=
  let s := lcgStep r.seed
  (⟨s⟩, (s : ℚ) / 2147483647)

/-- `nextInt(min, max) = Math.floor(next() * (max - min)) + min`.  With
`next() = s / (2^31 - 1)` for the updated state `s`, the floor is the
integer floor division `⌊s * (max - min) / (2^31 - 1)⌋`, written with
`Int.fdiv` so it evaluates (rational arithmetic does not reduce in the
kernel); `nextInt_eq_floor` below proves it equal to the rational form. -/
def Rng.nextInt (r : Rng) (min max : ℤ) : Rng × ℤ :=
  (r.next.1, (r.next.1.seed * (max - min)).fdiv 2147483647 + min)

/-- The integer `nextInt` agrees with `Math.floor(next() * (max - min)) + min`. -/
theorem nextInt_eq_floor (r : Rng) (mn mx : ℤ) :
    (r.nextInt mn mx).2 = ⌊r.next.2 * ((mx : ℚ) - (mn : ℚ))⌋ + mn := by
  have hv : r.next.2 = ((r.next.1.seed : ℚ)) / ((2147483647 : ℕ) : ℚ) := by
    unfold Rng.next
    norm_num
  rw [Rng.nextInt, hv]
  have : ((r.next.1.seed : ℚ)) / ((2147483647 : ℕ) : ℚ) * ((mx : ℚ) - (mn : ℚ)) =
      ((r.next.1.seed * (mx - mn) : ℤ) : ℚ) / ((2147483647 : ℕ) : ℚ) := by
    push_cast
    ring
  rw [this, Rat.floor_intCast_div_natCast,
    Int.fdiv_eq_ediv _ (by norm_num : (0 : ℤ) ≤ 2147483647)]
  norm_num


/-- The inclusive descending integer range `[hi, hi-1, ..., lo]`. -/
def intRangeDesc (hi lo : ℤ) : List ℤ :=
  (List.range (hi + 1 - lo).toNat).map (fun i : ℕ => hi - (i : ℤ))

/-- The inclusive ascending integer range `[lo, ..., hi]`. -/
def intRange (lo hi : ℤ) : List ℤ :=
  (List.range (hi + 1 - lo).toNat).map (fun i : ℕ => lo + (i : ℤ))

theorem mem_intRangeDesc (hi lo y : ℤ) :
    y ∈ intRangeDesc hi lo ↔ lo ≤ y ∧ y ≤ hi := by
  unfold intRangeDesc
  simp only [List.mem_map, List.mem_range]
  constructor
  · rintro ⟨i, hi', rfl⟩
    omega
  · rintro ⟨h1, h2⟩
    exact ⟨(hi - y).toNat, by omega, by omega⟩

theorem mem_intRange (lo hi y : ℤ) :
    y ∈ intRange lo hi ↔ lo ≤ y ∧ y ≤ hi := by
  unfold intRange
  simp only [List.mem_map, List.mem_range]
  constructor
  · rintro ⟨i, hi', rfl⟩
    omega
  · rintro ⟨h1, h2⟩
    exact ⟨(y - lo).toNat, by omega, by omega⟩

/-- `isBlockAt`. -/
def isBlockAt (s : Store) (x y z : ℤ) : Bool := s.hasKey (x, y, z)

/-- `getHighestBlockAt`: first occupied `y` scanning `50` down to `-50`,
else the sentinel `-1`. -/
def getHighestBlockAt (s : Store) (x z : ℤ) : ℤ :=
  match (intRangeDesc 50 (-50)).find? (fun y => isBlockAt s x y z) with
  | some y => y
  | none => -1

/-! ## `GreedyMesher` (`greedy-mesh.js`)

The mesher receives a list of same-type blocks (only their coordinates
matter), a `blockSize`, an optional `neighborCheck` predicate (absent =
`null`, modelled as the constantly-false predicate), and an `isHalfHeight`
flag.  Quads are produced per face direction and per depth slice by greedy
rectangle covering of a 2D visibility mask. -/

/-- One entry of the mesher's `faces` array: the outward direction and the
two in-plane axis indices (`0` = x, `1` = y, `2` = z). -/
structure FaceData where
  dx : ℤ
  dy : ℤ
  dz : ℤ
  uA : ℕ
  vA : ℕ
  deriving DecidableEq, Repr

/-- The six face directions, in source order
(top, bottom, right, left, front, back). -/
def faces : List FaceData :=
  [⟨0, 1, 0, 0, 2⟩, ⟨0, -1, 0, 0, 2⟩, ⟨1, 0, 0, 2, 1⟩,
   ⟨-1, 0, 0, 2, 1⟩, ⟨0, 0, 1, 0, 1⟩, ⟨0, 0, -1, 0, 1⟩]

/-- `dAxis = 3 - uAxis - vAxis`. -/
def FaceData.dA (f : FaceData) : ℕ := 3 - f.uA - f.vA

/-- The `coords` array assembly: `coords[dAxis] = d; coords[uAxis] = u;
coords[vAxis] = v` (the three axes are distinct for every face). -/
def assignAxes (uA vA : ℕ) (u v d : ℤ) : Coord :=
  ((if uA = 0 then u else if vA = 0 then v else d),
   (if uA = 1 then u else if vA = 1 then v else d),
   (if uA = 2 then u else if vA = 2 then v else d))

/-- The neighbor coordinate `(x + dx, y + dy, z + dz)` of a cell. -/
def FaceData.nbr (f : FaceData) (c : Coord) : Coord :=
  (c.1 + f.dx, c.2.1 + f.dy, c.2.2 + f.dz)

/-- Bounding box of the input block list (`minX .. maxZ`). -/
structure Bounds where
  minX : ℤ
  maxX : ℤ
  minY : ℤ
  maxY : ℤ
  minZ : ℤ
  maxZ : ℤ
  deriving DecidableEq, Repr

/-- Minimum of a list (the `Math.min` fold, defined for nonempty input;
`0` is a don't-care default for `[]`, which the mesher never reaches). -/
def foldMin : List ℤ → ℤ
  | [] => 0
  | a :: t => t.foldl min a

/-- Maximum of a list, as `foldMin`. -/
def foldMax : List ℤ → ℤ
  | [] => 0
  | a :: t => t.foldl max a

/-- The bounds computed in step 1 of `createMeshGeometry`. -/
def boundsOf (blocks : List Coord) : Bounds :=
  ⟨foldMin (blocks.map (·.1)), foldMax (blocks.map (·.1)),
   foldMin (blocks.map (·.2.1)), foldMax (blocks.map (·.2.1)),
   foldMin (blocks.map (·.2.2)), foldMax (blocks.map (·.2.2))⟩

/-- Per-axis selection `uAxis === 0 ? minX : (uAxis === 1 ? minY : minZ)`. -/
def axisMin (b : Bounds) (a : ℕ) : ℤ :=
  if a = 0 then b.minX else if a = 1 then b.minY else b.minZ

/-- Per-axis maximum selection. -/
def axisMax (b : Bounds) (a : ℕ) : ℤ :=
  if a = 0 then b.maxX else if a = 1 then b.maxY else b.maxZ

/-- The visibility check of the mask-building loop: the face of the block at
`c` in direction `f` is visible iff no input block occupies the neighbor
cell and the external `neighborCheck` does not cull it. -/
def faceVisible (bs nc : Coord → Bool) (f : FaceData) (c : Coord) : Bool :=
  !(bs (f.nbr c)) && !(nc (f.nbr c))

/-- The 2D visibility mask of one depth slice: `mask.has(u, v)` after the
mask-building double loop (`u` and `v` range over the bounding box). -/
def sliceMask (bs nc : Coord → Bool) (b : Bounds) (f : FaceData) (d : ℤ)
    (u v : ℤ) : Bool :=
  decide (axisMin b f.uA ≤ u) && decide (u ≤ axisMax b f.uA) &&
  decide (axisMin b f.vA ≤ v) && decide (v ≤ axisMax b f.vA) &&
  bs (assignAxes f.uA f.vA u v d) &&
  faceVisible bs nc f (assignAxes f.uA f.vA u v d)

/-- A merged rectangle emitted by the greedy cover: anchor `(u, v)`, cell
width `w` and height `h`. -/
structure Rect where
  u : ℤ
  v : ℤ
  w : ℕ
  h : ℕ
  deriving DecidableEq, Repr

/-- The mask cells covered by a rectangle. -/
def rectCells (r : Rect) : Finset (ℤ × ℤ) :=
  Finset.Icc r.u (r.u + r.w - 1) ×ˢ Finset.Icc r.v (r.v + r.h - 1)

/-- The width-growing loop: `while (mask.has(u + width, v) &&
!processed.has(u + width, v) && u + width <= maxU) width++`.  `ok x` bundles
the mask-and-unprocessed test at column `x` of the anchor row; the fuel
always dominates `maxU - u`, so it never truncates the loop. -/
def growWidth (ok : ℤ → Bool) (hi u : ℤ) : ℕ → ℕ → ℕ
  | w, 0 => w
  | w, fuel + 1 =>
    if ok (u + (w : ℤ)) && decide (u + (w : ℤ) ≤ hi) then
      growWidth ok hi u (w + 1) fuel
    else w

/-- One row test of the height-growing loop: every column of the current
width is mask-set and unprocessed. -/
def rowOk (ok : ℤ → ℤ → Bool) (u : ℤ) (w : ℕ) (y : ℤ) : Bool :=
  (List.range w).all (fun k => ok (u + (k : ℤ)) y)

/-- The height-growing loop: extend down rows while the whole row passes and
`v + height <= maxV`. -/
def growHeight (ok : ℤ → ℤ → Bool) (hi u : ℤ) (w : ℕ) (v : ℤ) : ℕ → ℕ → ℕ
  | h, 0 => h
  | h, fuel + 1 =>
    if rowOk ok u w (v + (h : ℤ)) && decide (v + (h : ℤ) ≤ hi) then
      growHeight ok hi u w v (h + 1) fuel
    else h

/-- One iteration of the greedy scan at a cell: if the cell is mask-set and
unprocessed, grow a maximal rectangle, mark it processed and emit it. -/
def greedyStep (m : ℤ → ℤ → Bool) (hiU hiV : ℤ)
    (st : List Rect × Finset (ℤ × ℤ)) (cell : ℤ × ℤ) :
    List Rect × Finset (ℤ × ℤ) :=
  let u := cell.1
  let v := cell.2
  if m u v && !(decide (cell ∈ st.2)) then
    let okW : ℤ → Bool := fun x => m x v && !(decide ((x, v) ∈ st.2))
    let w := growWidth okW hiU u 1 ((hiU - u).toNat + 1)
    let okH : ℤ → ℤ → Bool := fun x y => m x y && !(decide ((x, y) ∈ st.2))
    let h := growHeight okH hiV u w v 1 ((hiV - v).toNat + 1)
    let r : Rect := ⟨u, v, w, h⟩
    (st.1 ++ [r], st.2 ∪ rectCells r)
  else st

/-- The row-major scan order of the greedy loops (`v` outer, `u` inner). -/
def rowMajor (loU hiU loV hiV : ℤ) : List (ℤ × ℤ) :=
  (intRange loV hiV).flatMap (fun v => (intRange loU hiU).map (fun u => (u, v)))

/-- The greedy rectangle cover of one depth slice's mask. -/
def greedySlice (m : ℤ → ℤ → Bool) (loU hiU loV hiV : ℤ) : List Rect :=
  ((rowMajor loU hiU loV hiV).foldl (greedyStep m hiU hiV) ([], ∅)).1

/-! ### Geometry assembly (`addQuad`) -/

/-- The output buffers of `createMeshGeometry` (Three.js attribute data;
floats modelled as rationals). -/
structure Geometry where
  vertices : List ℚ
  normals : List ℚ
  uvs : List ℚ
  indices : List ℕ
  deriving DecidableEq, Repr

/-- `new THREE.BufferGeometry()` with nothing in it. -/
def emptyGeometry : Geometry := ⟨[], [], [], []⟩

/-- A quad to emit: a greedy rectangle together with its slice depth and
face data. -/
structure Quad where
  u : ℤ
  v : ℤ
  w : ℕ
  h : ℕ
  d : ℤ
  f : FaceData
  deriving DecidableEq, Repr

/-- `coords`-style assembly over rationals for vertex positions. -/
def assignAxesQ (uA vA : ℕ) (u v d : ℚ) : ℚ × ℚ × ℚ :=
  ((if uA = 0 then u else if vA = 0 then v else d),
   (if uA = 1 then u else if vA = 1 then v else d),
   (if uA = 2 then u else if vA = 2 then v else d))

/-- `addQuad`: push 4 corner vertices (with their normals and repeat UVs)
and two triangles with per-face winding. -/
def addQuad (blockSize blockHeight : ℚ) (g : Geometry) (q : Quad) : Geometry :=
  let dPos : ℚ :=
    if q.f.dx > 0 || q.f.dy > 0 || q.f.dz > 0 then
      (if q.f.dy > 0 then (q.d : ℚ) + blockHeight else (q.d : ℚ) + 1)
    else (q.d : ℚ)
  let corners : List (ℕ × ℕ) := [(0, 0), (q.w, 0), (q.w, q.h), (0, q.h)]
  let halfSide : Bool := decide (blockHeight < 1) && decide (q.f.vA = 1)
  let verts := corners.flatMap (fun c =>
    let pu : ℚ := (q.u : ℚ) + (c.1 : ℚ)
    let pv : ℚ :=
      if halfSide then (q.v : ℚ) + (c.2 : ℚ) * blockHeight
      else (q.v : ℚ) + (c.2 : ℚ)
    let pos := assignAxesQ q.f.uA q.f.vA pu pv dPos
    [pos.1 * blockSize, pos.2.1 * blockSize, pos.2.2 * blockSize])
  let norms := corners.flatMap (fun _ => [(q.f.dx : ℚ), (q.f.dy : ℚ), (q.f.dz : ℚ)])
  let uvData := corners.flatMap (fun c =>
    if halfSide then [(c.1 : ℚ), (c.2 : ℚ) * blockHeight]
    else [(c.1 : ℚ), (c.2 : ℚ)])
  let base := g.vertices.length / 3
  let reversed :=
    (q.f.dx > 0 && q.f.dy = 0 && q.f.dz = 0) ||
    (q.f.dx = 0 && q.f.dy > 0 && q.f.dz = 0) ||
    (q.f.dx = 0 && q.f.dy = 0 && q.f.dz < 0)
  let idx :=
    if reversed then [base, base + 2, base + 1, base, base + 3, base + 2]
    else [base, base + 1, base + 2, base, base + 2, base + 3]
  ⟨g.vertices ++ verts, g.normals ++ norms, g.uvs ++ uvData, g.indices ++ idx⟩

/-- The full list of quads emitted by the face/slice loops. -/
def allQuads (bs nc : Coord → Bool) (b : Bounds) : List Quad :=
  faces.flatMap (fun f =>
    (intRange (axisMin b f.dA) (axisMax b f.dA)).flatMap (fun d =>
      (greedySlice (sliceMask bs nc b f d)
          (axisMin b f.uA) (axisMax b f.uA)
          (axisMin b f.vA) (axisMax b f.vA)).map
        (fun r => Quad.mk r.u r.v r.w r.h d f)))

/-- `GreedyMesher.createMeshGeometry`.  `nc` is `neighborCheck` (`null`
modelled as the constantly-false predicate). -/
def createMeshGeometry (blocks : List Coord) (blockSize : ℚ)
    (nc : Coord → Bool) (isHalfHeight : Bool) : Geometry :=
  if blocks.isEmpty then emptyGeometry
  else
    let blockHeight : ℚ := if isHalfHeight then 1/2 else 1
    let bs : Coord → Bool := fun c => blocks.any (fun bl => decide (bl = c))
    let b := boundsOf blocks
    (allQuads bs nc b).foldl (addQuad blockSize blockHeight) emptyGeometry

/-- Number of vertices (`geometry.attributes.position.count`). -/
def vertexCount (g : Geometry) : ℕ := g.vertices.length / 3

/-- Number of triangles (`geometry.index.count / 3`). -/
def triangleCount (g : Geometry) : ℕ := g.indices.length / 3

/-- The positions as coordinate triples (for bounding-volume data). -/
def positionsOf : List ℚ → List (ℚ × ℚ × ℚ)
  | x :: y :: z :: rest => (x, y, z) :: positionsOf rest
  | _ => []

/-- Bounding-volume data of a geometry: the componentwise min/max corners
of its positions (`computeBoundingSphere` is a function of these samples;
`none` for an empty geometry). -/
def boundingBox (g : Geometry) : Option ((ℚ × ℚ × ℚ) × (ℚ × ℚ × ℚ)) :=
  match positionsOf g.vertices with
  | [] => none
  | p :: ps =>
    some (ps.foldl (fun a q => (min a.1 q.1, min a.2.1 q.2.1, min a.2.2 q.2.2)) p,
          ps.foldl (fun a q => (max a.1 q.1, max a.2.1 q.2.1, max a.2.2 q.2.2)) p)

/-! ## `World` (`world.js`)

State: the block store plus the registered chunk keys (insertion order).
Chunk meshes are a pure function of the store (`buildChunkMesh` below), so
they are not carried in the state; `unloadChunk` removing them is observable
through the registration set.

`chunkSize` is the constructor constant `16`; `renderDistance` (source
value `8`) is taken as a parameter `R` so the streaming theorems can speak
about it; the unload hysteresis is the source literal `2`.

The octave-noise height `Math.floor(baseHeight + noiseValue * heightVariation)`
is abstracted as an integer height function `hf x z` — the only
floating-point computation not translated exactly. -/

/-- Abstraction of `Math.floor(8 + octaveNoise2D(x*0.05, z*0.05, 4, 0.5, 1) * 12)`. -/
abbrev HeightFn := ℤ → ℤ → ℤ

/-- A stored block record `{x, y, z, type}`. -/
structure Block where
  x : ℤ
  y : ℤ
  z : ℤ
  type : BlockType
  deriving DecidableEq, Repr

/-- World state: block store plus registered chunk keys. -/
structure World where
  store : Store
  chunks : List (ℤ × ℤ)
  deriving Repr

/-- `Math.floor(a / n)` on integer inputs. -/
def floorDiv (a n : ℤ) : ℤ := a.fdiv n

/-- Chunk registration test (`this.chunks.has(getChunkKey(cx, cz))`;
the string key is injective on integer pairs). -/
def World.hasChunk (w : World) (q : ℤ × ℤ) : Bool :=
  w.chunks.any (fun q' => decide (q' = q))

/-- The innermost body of the leaf loops of `generateTree`.  The `continue`
conditions: `dist > 2.5  ⟺  dx² + dz² > 6.25  ⟺  dx² + dz² ≥ 7` on
integers, and the trunk-center skip.  The leaf test
`random.next() < 1.0 - (dist / (leavesRadius + 1)) * 0.3`, i.e.
`next() < 1 - sqrt n / 10`, is — since `next() = s / (2^31 - 1) ≤ 1` for
the updated state `s` — equivalent to the integer inequality
`n * (2^31 - 1)² < 100 * ((2^31 - 1) - s)²`, which is the form that
evaluates (`leafStep_roll` below proves the equivalence). -/
def leafStep (x leavesY z dx dy : ℤ) (st : Store × Rng) (dz : ℤ) : Store × Rng :=
  let n : ℤ := dx * dx + dz * dz
  if n > 6 then st
  else if dx = 0 ∧ dy = -1 ∧ dz = 0 then st
  else
    let r := st.2.next.1
    if n * 2147483647 ^ 2 < 100 * (2147483647 - r.seed) ^ 2 then
      (st.1.setIfAbsent (x + dx, leavesY + dy, z + dz) .leaves, r)
    else (st.1, r)

/-- The integer leaf roll agrees with the source's rational comparison
`next() < 1 - √n / 10` (squared; `next() ≤ 1` always). -/
theorem leafStep_roll (r : Rng) (n : ℤ) :
    (n * 2147483647 ^ 2 < 100 * (2147483647 - r.next.1.seed) ^ 2) ↔
      (n : ℚ) < 100 * (1 - r.next.2) ^ 2 := by
  have hv : r.next.2 = ((r.next.1.seed : ℚ)) / 2147483647 := by
    unfold Rng.next
    norm_num
  rw [hv]
  rw [show (1 : ℚ) - (r.next.1.seed : ℚ) / 2147483647 =
      ((2147483647 : ℚ) - (r.next.1.seed : ℚ)) / 2147483647 by ring]
  rw [div_pow, ← mul_div_assoc, lt_div_iff₀ (by positivity)]
  constructor
  · intro hlt
    calc (n : ℚ) * 2147483647 ^ 2 = ((n * 2147483647 ^ 2 : ℤ) : ℚ) := by push_cast; ring
      _ < ((100 * (2147483647 - r.next.1.seed) ^ 2 : ℤ) : ℚ) := by exact_mod_cast hlt
      _ = 100 * ((2147483647 : ℚ) - (r.next.1.seed : ℚ)) ^ 2 := by push_cast; ring
  · intro hlt
    have : ((n * 2147483647 ^ 2 : ℤ) : ℚ) <
        ((100 * (2147483647 - r.next.1.seed) ^ 2 : ℤ) : ℚ) := by
      calc ((n * 2147483647 ^ 2 : ℤ) : ℚ) = (n : ℚ) * 2147483647 ^ 2 := by push_cast; ring
        _ < 100 * ((2147483647 : ℚ) - (r.next.1.seed : ℚ)) ^ 2 := hlt
        _ = ((100 * (2147483647 - r.next.1.seed) ^ 2 : ℤ) : ℚ) := by push_cast; ring
    exact_mod_cast this

/-- `generateTree`: a trunk of height `3 + nextInt(0, 4)` and a radius-2
leaf volume, all insert-only writes. -/
def generateTree (st : Store × Rng) (x y z : ℤ) : Store × Rng :=
  let r₁ := (st.2.nextInt 0 4).1
  let trunkHeight := 3 + (st.2.nextInt 0 4).2
  let store₁ := (intRange 0 (trunkHeight - 1)).foldl
    (fun s i => s.setIfAbsent (x, y + i, z) .wood) st.1
  let leavesY := y + trunkHeight
  (intRange (-2) 2).foldl (fun st dx =>
    (intRange (-1) 2).foldl (fun st dy =>
      (intRange (-2) 2).foldl (leafStep x leavesY z dx dy) st) st) (store₁, r₁)

/-- The layered terrain type of cell `y` in a column of height `h`
(`stone` base, `dirt` band, `grass` top, `stone` at `y = 0`). -/
def terrainType (y h : ℤ) : BlockType :=
  if y = 0 then .stone
  else if y < h - 3 then .stone
  else if y < h - 1 then .dirt
  else .grass

/-- One column of `generateChunk`: stamp the terrain layers with `set`
(force overwrite), then — only when `finalHeight > 3`, due to `&&`
short-circuit — draw the tree roll (`next() < 0.015`, and
`0.015 = 3/200`). -/
def genColumn (hf : HeightFn) (st : Store × Rng) (x z : ℤ) : Store × Rng :=
  let terrainHeight := hf x z
  let finalHeight := max 1 terrainHeight
  let store₁ := (intRange 0 (finalHeight - 1)).foldl
    (fun s y => s.set (x, y, z) (terrainType y finalHeight)) st.1
  if finalHeight > 3 then
    let r := st.2.next.1
    if 200 * r.seed < 3 * 2147483647 then generateTree (store₁, r) x finalHeight z
    else (store₁, r)
  else (store₁, st.2)

/-- The integer tree-spawn roll agrees with the source's
`chunkRandom.next() < 0.015` (`0.015 = 3/200`). -/
theorem genColumn_roll (r : Rng) :
    (200 * r.next.1.seed < 3 * 2147483647) ↔ r.next.2 < 3 / 200 := by
  have hv : r.next.2 = ((r.next.1.seed : ℚ)) / 2147483647 := by
    unfold Rng.next
    norm_num
  rw [hv, div_lt_div_iff₀ (by norm_num) (by norm_num)]
  constructor
  · intro hlt
    have : ((200 * r.next.1.seed : ℤ) : ℚ) < ((3 * 2147483647 : ℤ) : ℚ) := by
      exact_mod_cast hlt
    push_cast at this
    linarith
  · intro hlt
    have : ((r.next.1.seed * 200 : ℤ) : ℚ) < ((3 * 2147483647 : ℤ) : ℚ) := by
      push_cast
      linarith
    have h2 : r.next.1.seed * 200 < 3 * 2147483647 := by exact_mod_cast this
    linarith

/-- The column scan order of `generateChunk` (`x` outer, `z` inner, each
over `[c*16, (c+1)*16)`). -/
def chunkColumns (cx cz : ℤ) : List (ℤ × ℤ) :=
  (intRange (cx * 16) ((cx + 1) * 16 - 1)).flatMap
    (fun x => (intRange (cz * 16) ((cz + 1) * 16 - 1)).map (fun z => (x, z)))

/-- `generateChunk`: a fresh chunk-local stream seeded
`this.seed + cx*4321 + cz*9876`, terrain + trees per column, then chunk
registration (the mesh build at the end is a pure function of the store). -/
def generateChunk (hf : HeightFn) (seed : ℤ) (w : World) (cx cz : ℤ) : World :=
  let chunkRandom : Rng := ⟨seed + cx * 4321 + cz * 9876⟩
  let res := (chunkColumns cx cz).foldl
    (fun st p => genColumn hf st p.1 p.2) (w.store, chunkRandom)
  { store := res.1, chunks := w.chunks ++ [(cx, cz)] }

/-- `getBlocksInChunk`: scan the chunk's columns over `y ∈ [-5, 100)` and
collect the stored block records. -/
def getBlocksInChunk (s : Store) (cx cz : ℤ) : List Block :=
  (intRange (cx * 16) ((cx + 1) * 16 - 1)).flatMap fun x =>
    (intRange (cz * 16) ((cz + 1) * 16 - 1)).flatMap fun z =>
      (intRange (-5) 99).filterMap fun y =>
        (s.get (x, y, z)).map (fun t => ⟨x, y, z, t⟩)

/-- The per-type input list handed to the mesher by `buildChunkMesh`. -/
def chunkTypeBlocks (s : Store) (cx cz : ℤ) (t : BlockType) : List Coord :=
  ((getBlocksInChunk s cx cz).filter (fun b => b.type = t)).map
    (fun b => (b.x, b.y, b.z))

/-- The geometry `buildChunkMesh` builds for one block type of one chunk:
the mesher on the type's blocks with
`neighborCheck = (nx, ny, nz) => this.isBlockAt(nx, ny, nz)`. -/
def chunkGeometry (s : Store) (cx cz : ℤ) (t : BlockType) : Geometry :=
  createMeshGeometry (chunkTypeBlocks s cx cz t) 1 (fun c => s.hasKey c) false

/-- The face-culling decision of the chunk mesh pipeline: the visibility
test `createMeshGeometry` applies to a cell of the type-`t` block list of
chunk `(cx, cz)`, with the internal same-type set and the type-blind
`isBlockAt` neighbor check. -/
def chunkFaceVisible (s : Store) (cx cz : ℤ) (t : BlockType) (f : FaceData)
    (c : Coord) : Bool :=
  faceVisible
    (fun c' => (chunkTypeBlocks s cx cz t).any (fun bl => decide (bl = c')))
    (fun c' => s.hasKey c') f c

/-- The chunk crossings rebuilt after a mutation at `c`: the own chunk
first, then every distinct neighbor chunk reached by `±1` in x or z. -/
def rebuildTargets (c : Coord) : List (ℤ × ℤ) :=
  let cp : ℤ × ℤ := (floorDiv c.1 16, floorDiv c.2.2 16)
  let locals : List (ℤ × ℤ × ℤ) := [(0, 0, 1), (0, 0, -1), (1, 0, 0), (-1, 0, 0)]
  cp :: ((locals.map (fun d =>
      (floorDiv (c.1 + d.1) 16, floorDiv (c.2.2 + d.2.2) 16))).filter
    (fun q => ¬ q = cp)).dedup

/-- `addBlock`: early return when the key is occupied, else insert and
rebuild the affected chunk meshes (returned as the list of rebuilt chunk
keys, empty = no rebuild was triggered). -/
def addBlock (w : World) (c : Coord) (t : BlockType) : World × List (ℤ × ℤ) :=
  if w.store.hasKey c then (w, [])
  else ({ w with store := w.store.set c t }, rebuildTargets c)

/-- `removeBlock`: early return when the key is absent, else delete and
rebuild. -/
def removeBlock (w : World) (c : Coord) : World × List (ℤ × ℤ) :=
  if ¬ w.store.hasKey c then (w, [])
  else ({ w with store := w.store.erase c }, rebuildTargets c)

/-- `getBlock` (the stored record, reduced to its type payload). -/
def World.getBlock (w : World) (c : Coord) : Option BlockType := w.store.get c

/-- `getBlockCount`. -/
def World.getBlockCount (w : World) : ℕ := w.store.count

/-- `unloadChunk`: dispose the chunk's meshes and drop its registration;
the block store is untouched. -/
def unloadChunk (w : World) (cx cz : ℤ) : World :=
  if w.hasChunk (cx, cz) then
    { w with chunks := w.chunks.filter (fun q => ¬ q = (cx, cz)) }
  else w

/-- `updateChunks`: generate every unregistered chunk within Chebyshev
radius `R` of the player's chunk, then unload every registered chunk
farther than `R + 2` in x or z. -/
def updateChunks (hf : HeightFn) (seed : ℤ) (R : ℕ) (w : World)
    (px pz : ℤ) : World :=
  let cx := px.fdiv 16
  let cz := pz.fdiv 16
  let w₁ := (intRange (cx - R) (cx + R)).foldl (fun w x =>
    (intRange (cz - R) (cz + R)).foldl (fun w z =>
      if w.hasChunk (x, z) then w
      else generateChunk hf seed w x z) w) w
  let keep : (ℤ × ℤ) → Bool := fun q =>
    ¬ (|q.1 - cx| > (R : ℤ) + 2 ∨ |q.2 - cz| > (R : ℤ) + 2)
  { w₁ with chunks := w₁.chunks.filter keep }

/-! ### A function view of the store, for evaluation

Ground queries against generated worlds are needed below (for concrete
counterexample inputs).  The association-list store makes every insert
rescan the list, which the kernel cannot evaluate at chunk scale, so we
mirror the generation pipeline over the store's *observation*
`Store.get : Coord → Option BlockType` — point updates on functions — and
prove the mirror simulates the real pipeline.  Concrete queries are then
evaluated on the mirror. -/

/-- The store observation: what `get` returns at every coordinate. -/
abbrev StoreF := Coord → Option BlockType

/-- Point overwrite on the observation (mirror of `Store.set`). -/
def setFn (f : StoreF) (c : Coord) (t : BlockType) : StoreF :=
  fun c' => if c' = c then some t else f c'

/-- Insert-only point write (mirror of `Store.setIfAbsent`). -/
def setIfAbsentFn (f : StoreF) (c : Coord) (t : BlockType) : StoreF :=
  if (f c).isSome then f else setFn f c t

/-- Point delete (mirror of `Store.erase`). -/
def eraseFn (f : StoreF) (c : Coord) : StoreF :=
  fun c' => if c' = c then none else f c'

theorem get_set_fn (s : Store) (c : Coord) (t : BlockType) :
    (s.set c t).get = setFn s.get c t := funext fun c' => by
  rw [Store.get_set]
  rfl

theorem get_setIfAbsent_fn (s : Store) (c : Coord) (t : BlockType) :
    (s.setIfAbsent c t).get = setIfAbsentFn s.get c t := funext fun c' => by
  rw [Store.get_setIfAbsent]
  unfold setIfAbsentFn setFn
  by_cases hk : s.hasKey c = true
  · rw [if_pos ((Store.hasKey_iff_get s c).mp hk)]
    simp [hk]
  · have hks : ¬ (s.get c).isSome = true := fun hs =>
      hk ((Store.hasKey_iff_get s c).mpr hs)
    rw [if_neg hks]
    by_cases hc : c' = c
    · simp [hc, Bool.eq_false_iff.mpr hk]
    · simp [hc]

theorem get_erase_fn (s : Store) (c : Coord) :
    (s.erase c).get = eraseFn s.get c := funext fun c' => by
  rw [Store.get_erase]
  rfl

/-- Evaluation mirror of `leafStep`. -/
def leafStepF (x leavesY z dx dy : ℤ) (st : StoreF × Rng) (dz : ℤ) :
    StoreF × Rng :=
  let n : ℤ := dx * dx + dz * dz
  if n > 6 then st
  else if dx = 0 ∧ dy = -1 ∧ dz = 0 then st
  else
    let r := st.2.next.1
    if n * 2147483647 ^ 2 < 100 * (2147483647 - r.seed) ^ 2 then
      (setIfAbsentFn st.1 (x + dx, leavesY + dy, z + dz) .leaves, r)
    else (st.1, r)

/-- Evaluation mirror of `generateTree`. -/
def generateTreeF (st : StoreF × Rng) (x y z : ℤ) : StoreF × Rng :=
  let r₁ := (st.2.nextInt 0 4).1
  let trunkHeight := 3 + (st.2.nextInt 0 4).2
  let store₁ := (intRange 0 (trunkHeight - 1)).foldl
    (fun s i => setIfAbsentFn s (x, y + i, z) .wood) st.1
  let leavesY := y + trunkHeight
  (intRange (-2) 2).foldl (fun st dx =>
    (intRange (-1) 2).foldl (fun st dy =>
      (intRange (-2) 2).foldl (leafStepF x leavesY z dx dy) st) st) (store₁, r₁)

/-- Evaluation mirror of `genColumn`. -/
def genColumnF (hf : HeightFn) (st : StoreF × Rng) (x z : ℤ) : StoreF × Rng :=
  let terrainHeight := hf x z
  let finalHeight := max 1 terrainHeight
  let store₁ := (intRange 0 (finalHeight - 1)).foldl
    (fun s y => setFn s (x, y, z) (terrainType y finalHeight)) st.1
  if finalHeight > 3 then
    let r := st.2.next.1
    if 200 * r.seed < 3 * 2147483647 then generateTreeF (store₁, r) x finalHeight z
    else (store₁, r)
  else (store₁, st.2)

/-- Evaluation mirror of `generateChunk` (store observation only). -/
def generateChunkF (hf : HeightFn) (seed : ℤ) (f : StoreF) (cx cz : ℤ) :
    StoreF :=
  ((chunkColumns cx cz).foldl (fun st p => genColumnF hf st p.1 p.2)
    (f, ⟨seed + cx * 4321 + cz * 9876⟩)).1

/-- Step-wise simulation of two folds. -/
theorem foldl_sim {α σ τ : Type _} (R : σ → τ → Prop) (f : σ → α → σ)
    (g : τ → α → τ) (l : List α)
    (hstep : ∀ s t a, R s t → R (f s a) (g t a)) :
    ∀ {s : σ} {t : τ}, R s t → R (l.foldl f s) (l.foldl g t) := by
  induction l with
  | nil => intro s t h; exact h
  | cons a l ih => intro s t h; exact ih (hstep _ _ _ h)

/-- The simulation relation: the mirror state is the real state's
observation, with the same random stream. -/
def SimR (a : Store × Rng) (b : StoreF × Rng) : Prop :=
  a.1.get = b.1 ∧ a.2 = b.2

theorem leafStep_sim (x leavesY z dx dy : ℤ) (a : Store × Rng)
    (b : StoreF × Rng) (h : SimR a b) (dz : ℤ) :
    SimR (leafStep x leavesY z dx dy a dz) (leafStepF x leavesY z dx dy b dz) := by
  obtain ⟨h1, h2⟩ := h
  unfold leafStep leafStepF
  by_cases hn : (dx * dx + dz * dz : ℤ) > 6
  · simp only [if_pos hn]
    exact ⟨h1, h2⟩
  · simp only [if_neg hn]
    by_cases hc : dx = 0 ∧ dy = -1 ∧ dz = 0
    · simp only [if_pos hc]
      exact ⟨h1, h2⟩
    · simp only [if_neg hc, h2]
      by_cases hr : (dx * dx + dz * dz : ℤ) * 2147483647 ^ 2 <
          100 * (2147483647 - (b.2.next.1).seed) ^ 2
      · simp only [if_pos hr]
        exact ⟨by rw [get_setIfAbsent_fn, h1], rfl⟩
      · simp only [if_neg hr]
        exact ⟨h1, rfl⟩

theorem generateTree_sim (a : Store × Rng) (b : StoreF × Rng) (h : SimR a b)
    (x y z : ℤ) : SimR (generateTree a x y z) (generateTreeF b x y z) := by
  obtain ⟨h1, h2⟩ := h
  unfold generateTree generateTreeF
  rw [h2]
  have htrunk : ((intRange 0 (3 + (b.2.nextInt 0 4).2 - 1)).foldl
      (fun s i => s.setIfAbsent (x, y + i, z) .wood) a.1).get =
      (intRange 0 (3 + (b.2.nextInt 0 4).2 - 1)).foldl
        (fun s i => setIfAbsentFn s (x, y + i, z) .wood) b.1 :=
    foldl_sim (fun s f => Store.get s = f) _ _ _
      (fun s f i hr => show (s.setIfAbsent (x, y + i, z) BlockType.wood).get =
          setIfAbsentFn f (x, y + i, z) BlockType.wood by
        rw [get_setIfAbsent_fn, show s.get = f from hr]) h1
  exact foldl_sim SimR _ _ _
    (fun a' b' dx h' => foldl_sim SimR _ _ _
      (fun a'' b'' dy h'' => foldl_sim SimR _ _ _
        (fun a3 b3 dz h3 => leafStep_sim _ _ _ dx dy a3 b3 h3 dz) h'') h')
    ⟨htrunk, rfl⟩

theorem genColumn_sim (hf : HeightFn) (a : Store × Rng) (b : StoreF × Rng)
    (h : SimR a b) (x z : ℤ) :
    SimR (genColumn hf a x z) (genColumnF hf b x z) := by
  obtain ⟨h1, h2⟩ := h
  unfold genColumn genColumnF
  rw [h2]
  have hterr : ((intRange 0 (max 1 (hf x z) - 1)).foldl
      (fun s y => s.set (x, y, z) (terrainType y (max 1 (hf x z)))) a.1).get =
      (intRange 0 (max 1 (hf x z) - 1)).foldl
        (fun s y => setFn s (x, y, z) (terrainType y (max 1 (hf x z)))) b.1 :=
    foldl_sim (fun s f => Store.get s = f) _ _ _
      (fun s f yy hr => show (s.set (x, yy, z) (terrainType yy (max 1 (hf x z)))).get =
          setFn f (x, yy, z) (terrainType yy (max 1 (hf x z))) by
        rw [get_set_fn, show s.get = f from hr]) h1
  by_cases hh : max 1 (hf x z) > 3
  · simp only [if_pos hh]
    by_cases hroll : 200 * (b.2.next.1).seed < 3 * 2147483647
    · simp only [if_pos hroll]
      exact generateTree_sim _ _ ⟨hterr, rfl⟩ x (max 1 (hf x z)) z
    · simp only [if_neg hroll]
      refine ⟨hterr, ?_⟩
      trivial
  · simp only [if_neg hh]
    refine ⟨hterr, ?_⟩
    trivial

/-- The chunk generator is simulated by its mirror: the generated world's
store observation is `generateChunkF` of the old observation. -/
theorem generateChunk_sim (hf : HeightFn) (seed : ℤ) (w : World) (cx cz : ℤ) :
    (generateChunk hf seed w cx cz).store.get =
      generateChunkF hf seed w.store.get cx cz := by
  unfold generateChunk generateChunkF
  exact (foldl_sim SimR _ _ (chunkColumns cx cz)
    (fun a b p h => genColumn_sim hf a b h p.1 p.2)
    (⟨rfl, rfl⟩ : SimR (w.store, ⟨seed + cx * 4321 + cz * 9876⟩)
      (w.store.get, ⟨seed + cx * 4321 + cz * 9876⟩))).1

/-! ### Generation toolkit: invariants, locality and random-stream
projections of the terrain pipeline -/

/-- Invariant preservation along a fold. -/
theorem foldl_inv {α σ : Type _} (P : σ → Prop) (step : σ → α → σ)
    (l : List α) (hp : ∀ s a, a ∈ l → P s → P (step s a)) :
    ∀ s, P s → P (l.foldl step s) := by
  induction l with
  | nil => exact fun s h => h
  | cons a t ih =>
    intro s h
    exact ih (fun s' a' ha' h' => hp s' a' (List.mem_cons_of_mem a ha') h')
      _ (hp s a (List.mem_cons_self a t) h)

/-- A fold whose every step preserves the `get` at a cell preserves it. -/
theorem foldl_preserve_get {α : Type _} (step : Store × Rng → α → Store × Rng)
    (l : List α) (c : Coord)
    (h : ∀ a ∈ l, ∀ st, ((step st a).1).get c = st.1.get c) :
    ∀ st, ((l.foldl step st).1).get c = st.1.get c := by
  induction l with
  | nil => exact fun st => rfl
  | cons a t ih =>
    intro st
    rw [List.foldl_cons, ih (fun a' ha' => h a' (List.mem_cons_of_mem a ha')),
      h a (List.mem_cons_self a t)]

/-- Same, for store-only folds. -/
theorem foldl_store_preserve_get {α : Type _} (step : Store → α → Store)
    (l : List α) (c : Coord)
    (h : ∀ a ∈ l, ∀ s, (step s a).get c = s.get c) :
    ∀ s, (l.foldl step s).get c = s.get c := by
  induction l with
  | nil => exact fun s => rfl
  | cons a t ih =>
    intro s
    rw [List.foldl_cons, ih (fun a' ha' => h a' (List.mem_cons_of_mem a ha')),
      h a (List.mem_cons_self a t)]

/-- `setIfAbsent` elsewhere changes nothing. -/
theorem Store.get_setIfAbsent_ne (s : Store) (c c' : Coord) (t : BlockType)
    (h : ¬ c' = c) : (s.setIfAbsent c t).get c' = s.get c' := by
  rw [Store.get_setIfAbsent]
  simp [h]

/-- `leafStep` leaves a cell alone when the step is a skip or aims at a
different cell (for any state, any roll outcome). -/
theorem leafStep_preserve (x leavesY z dx dy dz : ℤ) (c : Coord)
    (h : (dx = 0 ∧ dy = -1 ∧ dz = 0) ∨ ¬ ((x + dx, leavesY + dy, z + dz) = c)) :
    ∀ st, ((leafStep x leavesY z dx dy st dz).1).get c = st.1.get c := by
  intro st
  unfold leafStep
  by_cases hn : (dx * dx + dz * dz : ℤ) > 6
  · rw [if_pos hn]
  · rw [if_neg hn]
    by_cases hc : dx = 0 ∧ dy = -1 ∧ dz = 0
    · rw [if_pos hc]
    · rw [if_neg hc]
      rcases h with h | h
      · exact absurd h hc
      · by_cases hr : (dx * dx + dz * dz : ℤ) * 2147483647 ^ 2 <
            100 * (2147483647 - (st.2.next.1).seed) ^ 2
        · simp only [if_pos hr]
          exact Store.get_setIfAbsent_ne _ _ _ _ (fun hh => h hh.symm)
        · simp only [if_neg hr]

/-- `generateTree` touches only cells within the `±2` horizontal structure
footprint of its base column. -/
theorem generateTree_local (x y z : ℤ) (c : Coord)
    (hc : ¬ (|c.1 - x| ≤ 2 ∧ |c.2.2 - z| ≤ 2)) :
    ∀ st, ((generateTree st x y z).1).get c = st.1.get c := by
  intro st
  unfold generateTree
  have hxz : ¬ (c.1 = x ∧ c.2.2 = z) := by
    intro ⟨h1, h2⟩
    exact hc ⟨by rw [h1]; simp, by rw [h2]; simp⟩
  have htrunk : ∀ s : Store, ((intRange 0 (3 + (st.2.nextInt 0 4).2 - 1)).foldl
      (fun s i => s.setIfAbsent (x, y + i, z) .wood) s).get c = s.get c := by
    apply foldl_store_preserve_get
    intro i _ s
    apply Store.get_setIfAbsent_ne
    intro hh
    rw [hh] at hxz
    exact hxz ⟨rfl, rfl⟩
  refine Eq.trans ?_ (htrunk st.1)
  apply foldl_preserve_get
  intro dx hdx st'
  apply foldl_preserve_get
  intro dy _ st''
  apply foldl_preserve_get
  intro dz hdz st3
  apply leafStep_preserve
  right
  intro hh
  rw [← hh] at hc
  rcases (mem_intRange _ _ _).mp hdx with ⟨hdx1, hdx2⟩
  rcases (mem_intRange _ _ _).mp hdz with ⟨hdz1, hdz2⟩
  apply hc
  constructor <;> simp only [abs_le] <;> omega

/-- A column whose footprint cannot reach the cell leaves it alone. -/
theorem genColumn_local (hf : HeightFn) (x z : ℤ) (c : Coord)
    (hc : ¬ (|c.1 - x| ≤ 2 ∧ |c.2.2 - z| ≤ 2)) :
    ∀ st, ((genColumn hf st x z).1).get c = st.1.get c := by
  intro st
  unfold genColumn
  have hxz : ¬ (c.1 = x ∧ c.2.2 = z) := by
    intro ⟨h1, h2⟩
    exact hc ⟨by rw [h1]; simp, by rw [h2]; simp⟩
  have hterr : ∀ s : Store, ((intRange 0 (max 1 (hf x z) - 1)).foldl
      (fun s y => s.set (x, y, z) (terrainType y (max 1 (hf x z)))) s).get c = s.get c := by
    apply foldl_store_preserve_get
    intro yy _ s
    rw [Store.get_set]
    rw [if_neg]
    intro hh
    rw [hh] at hxz
    exact hxz ⟨rfl, rfl⟩
  by_cases hh : max 1 (hf x z) > 3
  · simp only [if_pos hh]
    by_cases hroll : 200 * (st.2.next.1).seed < 3 * 2147483647
    · simp only [if_pos hroll]
      exact Eq.trans (generateTree_local x (max 1 (hf x z)) z c hc _) (hterr st.1)
    · simp only [if_neg hroll]
      exact hterr st.1
  · simp only [if_neg hh]
    exact hterr st.1

/-- The insert-only write keeps any present entry's value. -/
theorem Store.get_setIfAbsent_some (s : Store) (c c' : Coord) (t v : BlockType)
    (h : s.get c = some v) : (s.setIfAbsent c' t).get c = some v := by
  rw [Store.get_setIfAbsent_of_isSome s c' c t (by rw [h]; rfl)]
  exact h

theorem leafStep_preserve_some (x leavesY z dx dy dz : ℤ) (st : Store × Rng)
    (c : Coord) (v : BlockType) (h : st.1.get c = some v) :
    ((leafStep x leavesY z dx dy st dz).1).get c = some v := by
  unfold leafStep
  by_cases hn : (dx * dx + dz * dz : ℤ) > 6
  · simp only [if_pos hn]; exact h
  · simp only [if_neg hn]
    by_cases hc : dx = 0 ∧ dy = -1 ∧ dz = 0
    · simp only [if_pos hc]; exact h
    · simp only [if_neg hc]
      by_cases hr : (dx * dx + dz * dz : ℤ) * 2147483647 ^ 2 <
          100 * (2147483647 - (st.2.next.1).seed) ^ 2
      · simp only [if_pos hr]
        exact Store.get_setIfAbsent_some _ _ _ _ _ h
      · simp only [if_neg hr]; exact h

/-- All of `generateTree`'s writes are insert-only: an occupied cell keeps
its value, whatever the rolls do. -/
theorem generateTree_preserve_some (st : Store × Rng) (x y z : ℤ)
    (c : Coord) (v : BlockType) (h : st.1.get c = some v) :
    ((generateTree st x y z).1).get c = some v := by
  unfold generateTree
  have htrunk : ∀ s : Store, s.get c = some v →
      ((intRange 0 (3 + (st.2.nextInt 0 4).2 - 1)).foldl
        (fun s i => s.setIfAbsent (x, y + i, z) .wood) s).get c = some v := by
    intro s hs
    exact foldl_inv (fun s' => s'.get c = some v) _ _
      (fun s' i _ h' => Store.get_setIfAbsent_some _ _ _ _ _ h') s hs
  refine foldl_inv (fun st' : Store × Rng => st'.1.get c = some v) _ _
    (fun a dx _ ha => ?_) _ (htrunk st.1 h)
  refine foldl_inv (fun st' : Store × Rng => st'.1.get c = some v) _ _
    (fun a' dy _ ha' => ?_) _ ha
  exact foldl_inv (fun st' : Store × Rng => st'.1.get c = some v) _ _
    (fun a'' dz _ ha'' => leafStep_preserve_some _ _ _ _ _ _ _ _ _ ha'') _ ha'

/-- After the terrain fold, a column cell in the written range holds its
terrain layer. -/
theorem terrainFold_get_mem (x z h : ℤ) (l : List ℤ) (y₀ : ℤ) (hm : y₀ ∈ l) :
    ∀ s : Store, ((l.foldl (fun s y => s.set (x, y, z) (terrainType y h)) s)).get
      (x, y₀, z) = some (terrainType y₀ h) := by
  induction l with
  | nil => cases hm
  | cons a t ih =>
    intro s
    rw [List.foldl_cons]
    by_cases hmt : y₀ ∈ t
    · exact ih hmt _
    · have hy : y₀ = a := by
        rcases List.mem_cons.mp hm with h' | h'
        · exact h'
        · exact absurd h' hmt
      subst hy
      rw [foldl_store_preserve_get _ t (x, y₀, z) (fun y' hy' s' => by
          rw [Store.get_set, if_neg]
          intro hc
          exact hmt (by injection hc with h1 h2; injection h2 with h2 h3; rw [h2]; exact hy'))]
      rw [Store.get_set, if_pos rfl]

/-- The surface cell of a column holds its terrain surface type after
`genColumn`, regardless of the incoming state and of the tree rolls. -/
theorem genColumn_surface (hf : HeightFn) (st : Store × Rng) (x z : ℤ) :
    ((genColumn hf st x z).1).get (x, max 1 (hf x z) - 1, z) =
      some (terrainType (max 1 (hf x z) - 1) (max 1 (hf x z))) := by
  unfold genColumn
  have hmem : (max 1 (hf x z) - 1) ∈ intRange 0 (max 1 (hf x z) - 1) := by
    rw [mem_intRange]
    constructor
    · have : (1 : ℤ) ≤ max 1 (hf x z) := le_max_left 1 _
      omega
    · exact le_refl _
  have hterr := terrainFold_get_mem x z (max 1 (hf x z))
    (intRange 0 (max 1 (hf x z) - 1)) (max 1 (hf x z) - 1) hmem st.1
  by_cases hh : max 1 (hf x z) > 3
  · simp only [if_pos hh]
    by_cases hroll : 200 * (st.2.next.1).seed < 3 * 2147483647
    · simp only [if_pos hroll]
      exact generateTree_preserve_some _ _ _ _ _ _ hterr
    · simp only [if_neg hroll]
      exact hterr
  · simp only [if_neg hh]
    exact hterr

/-- Column membership in a chunk's scan order. -/
theorem mem_chunkColumns (cx cz x z : ℤ) :
    (x, z) ∈ chunkColumns cx cz ↔
      cx * 16 ≤ x ∧ x ≤ (cx + 1) * 16 - 1 ∧ cz * 16 ≤ z ∧ z ≤ (cz + 1) * 16 - 1 := by
  unfold chunkColumns
  simp only [List.mem_flatMap, List.mem_map]
  constructor
  · rintro ⟨x', hx', z', hz', heq⟩
    injection heq with h1 h2
    subst h1; subst h2
    rcases (mem_intRange _ _ _).mp hx' with ⟨a, b⟩
    rcases (mem_intRange _ _ _).mp hz' with ⟨c, d⟩
    exact ⟨a, b, c, d⟩
  · rintro ⟨a, b, c, d⟩
    exact ⟨x, (mem_intRange _ _ _).mpr ⟨a, b⟩, z, (mem_intRange _ _ _).mpr ⟨c, d⟩, rfl⟩

/-- Surface composition through the whole column fold: once the fold has
passed the column `(x, z)`, the column's surface cell holds its terrain
surface type (later columns overwrite only their own `(x', ·, z')` cells
and insert-only tree blocks). -/
theorem colFold_surface (hf : HeightFn) (l : List (ℤ × ℤ)) (x z : ℤ)
    (hm : (x, z) ∈ l) (hnd : ∀ p ∈ l, p.1 = x ∧ p.2 = z → p = (x, z)) :
    ∀ st : Store × Rng,
      ((l.foldl (fun st p => genColumn hf st p.1 p.2) st).1).get
        (x, max 1 (hf x z) - 1, z) =
      some (terrainType (max 1 (hf x z) - 1) (max 1 (hf x z))) := by
  induction l with
  | nil => cases hm
  | cons p t ih =>
    intro st
    rw [List.foldl_cons]
    by_cases hmt : (x, z) ∈ t
    · exact ih hmt (fun p' hp' => hnd p' (List.mem_cons_of_mem p hp')) _
    · have hp : p = (x, z) := by
        rcases List.mem_cons.mp hm with h' | h'
        · exact h'.symm
        · exact absurd h' hmt
      subst hp
      refine foldl_inv (fun st' : Store × Rng =>
          st'.1.get (x, max 1 (hf x z) - 1, z) =
            some (terrainType (max 1 (hf x z) - 1) (max 1 (hf x z)))) _ t
        (fun a q hq ha => ?_) _ (genColumn_surface hf st x z)
      -- a later column q either is far horizontally or shares only one of
      -- the two coordinates with (x, z); either way the write is a `set`
      -- at q's own column cells or an insert-only tree write.
      by_cases hfar : |(x : ℤ) - q.1| ≤ 2 ∧ |(z : ℤ) - q.2| ≤ 2
      · -- near column: q ≠ (x, z) still, so terrain cells differ; tree
        -- writes are insert-only, preserved by `generateTree_preserve_some`
        have hqne : ¬ (q.1 = x ∧ q.2 = z) := by
          intro hc
          exact hmt (by rw [← hnd q (List.mem_cons_of_mem _ hq) hc]; exact hq)
        unfold genColumn
        have hterr : ∀ s : Store, s.get (x, max 1 (hf x z) - 1, z) =
            some (terrainType (max 1 (hf x z) - 1) (max 1 (hf x z))) →
            ((intRange 0 (max 1 (hf q.1 q.2) - 1)).foldl
              (fun s y => s.set (q.1, y, q.2) (terrainType y (max 1 (hf q.1 q.2)))) s).get
              (x, max 1 (hf x z) - 1, z) =
            some (terrainType (max 1 (hf x z) - 1) (max 1 (hf x z))) := by
          intro s hs
          rw [foldl_store_preserve_get _ _ _ (fun y' hy' s' => by
            rw [Store.get_set, if_neg]
            intro hc
            injection hc with h1 h2
            injection h2 with h2 h3
            exact hqne ⟨h1.symm, h3.symm⟩)]
          exact hs
        by_cases hh : max 1 (hf q.1 q.2) > 3
        · simp only [if_pos hh]
          by_cases hroll : 200 * (a.2.next.1).seed < 3 * 2147483647
          · simp only [if_pos hroll]
            exact generateTree_preserve_some _ _ _ _ _ _ (hterr a.1 ha)
          · simp only [if_neg hroll]
            exact hterr a.1 ha
        · simp only [if_neg hh]
          exact hterr a.1 ha
      · show ((genColumn hf a q.1 q.2).1).get (x, max 1 (hf x z) - 1, z) =
          some (terrainType (max 1 (hf x z) - 1) (max 1 (hf x z)))
        rw [genColumn_local hf q.1 q.2 (x, max 1 (hf x z) - 1, z) (by
            intro hc
            exact hfar ⟨by simpa using hc.1, by simpa using hc.2⟩) a]
        exact ha

/-- `terrainType` at the surface: `stone` for a height-1 column (its only
cell is `y = 0`), else `grass`. -/
theorem terrainType_surface (h : ℤ) (hh : 1 ≤ h) :
    terrainType (h - 1) h = if h = 1 then .stone else .grass := by
  unfold terrainType
  by_cases h1 : h = 1
  · subst h1
    norm_num
  · rw [if_neg h1, if_neg (by omega), if_neg (by omega), if_neg (by omega)]

/-- No terrain layer is water or sand. -/
theorem terrainType_ne_ws (y h : ℤ) :
    ¬ terrainType y h = .water ∧ ¬ terrainType y h = .sand := by
  unfold terrainType
  by_cases h1 : y = 0
  · simp [h1]
  · rw [if_neg h1]
    by_cases h2 : y < h - 3
    · simp [h2]
    · rw [if_neg h2]
      by_cases h3 : y < h - 1
      · simp [h3]
      · simp [h3]

/-- Writing a non-water non-sand block preserves "this cell is not water
or sand". -/
theorem set_no_ws (s : Store) (c' : Coord) (t : BlockType) (c : Coord)
    (ht : ¬ t = .water ∧ ¬ t = .sand)
    (h : ¬ s.get c = some .water ∧ ¬ s.get c = some .sand) :
    ¬ (s.set c' t).get c = some .water ∧ ¬ (s.set c' t).get c = some .sand := by
  rw [Store.get_set]
  by_cases hc : c = c'
  · simp only [if_pos hc]
    exact ⟨fun hh => ht.1 (by injection hh), fun hh => ht.2 (by injection hh)⟩
  · simp only [if_neg hc]
    exact h

theorem setIfAbsent_no_ws (s : Store) (c' : Coord) (t : BlockType) (c : Coord)
    (ht : ¬ t = .water ∧ ¬ t = .sand)
    (h : ¬ s.get c = some .water ∧ ¬ s.get c = some .sand) :
    ¬ (s.setIfAbsent c' t).get c = some .water ∧
      ¬ (s.setIfAbsent c' t).get c = some .sand := by
  rw [Store.get_setIfAbsent]
  by_cases hc : c = c' ∧ s.hasKey c' = false
  · simp only [if_pos hc]
    exact ⟨fun hh => ht.1 (by injection hh), fun hh => ht.2 (by injection hh)⟩
  · simp only [if_neg hc]
    exact h

/-- `generateChunk` never writes water or sand anywhere. -/
theorem generateChunk_no_ws (hf : HeightFn) (seed : ℤ) (w : World) (cx cz : ℤ)
    (c : Coord)
    (h : ¬ w.store.get c = some .water ∧ ¬ w.store.get c = some .sand) :
    ¬ (generateChunk hf seed w cx cz).store.get c = some .water ∧
      ¬ (generateChunk hf seed w cx cz).store.get c = some .sand := by
  unfold generateChunk
  refine foldl_inv (fun st : Store × Rng =>
      ¬ st.1.get c = some .water ∧ ¬ st.1.get c = some .sand) _ _
    (fun a q _ ha => ?_) _ h
  show ¬ ((genColumn hf a q.1 q.2).1).get c = some BlockType.water ∧
      ¬ ((genColumn hf a q.1 q.2).1).get c = some BlockType.sand
  unfold genColumn
  have hterr : ∀ s : Store,
      (¬ s.get c = some BlockType.water ∧ ¬ s.get c = some BlockType.sand) →
      (¬ ((intRange 0 (max 1 (hf q.1 q.2) - 1)).foldl
          (fun s y => s.set (q.1, y, q.2) (terrainType y (max 1 (hf q.1 q.2)))) s).get c =
        some BlockType.water ∧
       ¬ ((intRange 0 (max 1 (hf q.1 q.2) - 1)).foldl
          (fun s y => s.set (q.1, y, q.2) (terrainType y (max 1 (hf q.1 q.2)))) s).get c =
        some BlockType.sand) := by
    intro s hs
    exact foldl_inv (fun s' : Store =>
        ¬ s'.get c = some BlockType.water ∧ ¬ s'.get c = some BlockType.sand) _ _
      (fun s' y _ hs' => set_no_ws s' _ _ c (terrainType_ne_ws y _) hs') s hs
  have htree : ∀ st' : Store × Rng,
      (¬ st'.1.get c = some BlockType.water ∧ ¬ st'.1.get c = some BlockType.sand) →
      ∀ x y z : ℤ,
      (¬ ((generateTree st' x y z).1).get c = some BlockType.water ∧
       ¬ ((generateTree st' x y z).1).get c = some BlockType.sand) := by
    intro st' hst' x y z
    unfold generateTree
    have htrunk : ∀ s : Store,
        (¬ s.get c = some BlockType.water ∧ ¬ s.get c = some BlockType.sand) →
        (¬ ((intRange 0 (3 + (st'.2.nextInt 0 4).2 - 1)).foldl
            (fun s i => s.setIfAbsent (x, y + i, z) .wood) s).get c = some BlockType.water ∧
         ¬ ((intRange 0 (3 + (st'.2.nextInt 0 4).2 - 1)).foldl
            (fun s i => s.setIfAbsent (x, y + i, z) .wood) s).get c = some BlockType.sand) := by
      intro s hs
      exact foldl_inv (fun s' : Store =>
          ¬ s'.get c = some BlockType.water ∧ ¬ s'.get c = some BlockType.sand) _ _
        (fun s' i _ hs' => setIfAbsent_no_ws s' _ _ c (by constructor <;> intro hh <;> cases hh) hs') s hs
    refine foldl_inv (fun st'' : Store × Rng =>
        ¬ st''.1.get c = some BlockType.water ∧ ¬ st''.1.get c = some BlockType.sand) _ _
      (fun a' dx _ ha' => ?_) _ (htrunk st'.1 hst')
    refine foldl_inv (fun st'' : Store × Rng =>
        ¬ st''.1.get c = some BlockType.water ∧ ¬ st''.1.get c = some BlockType.sand) _ _
      (fun a'' dy _ ha'' => ?_) _ ha'
    refine foldl_inv (fun st'' : Store × Rng =>
        ¬ st''.1.get c = some BlockType.water ∧ ¬ st''.1.get c = some BlockType.sand) _ _
      (fun a3 dz _ ha3 => ?_) _ ha''
    show ¬ ((leafStep x (y + (3 + (st'.2.nextInt 0 4).2)) z dx dy a3 dz).1).get c =
        some BlockType.water ∧
      ¬ ((leafStep x (y + (3 + (st'.2.nextInt 0 4).2)) z dx dy a3 dz).1).get c =
        some BlockType.sand
    unfold leafStep
    by_cases hn : (dx * dx + dz * dz : ℤ) > 6
    · simp only [if_pos hn]; exact ha3
    · simp only [if_neg hn]
      by_cases hc : dx = 0 ∧ dy = -1 ∧ dz = 0
      · simp only [if_pos hc]; exact ha3
      · simp only [if_neg hc]
        by_cases hr : (dx * dx + dz * dz : ℤ) * 2147483647 ^ 2 <
            100 * (2147483647 - (a3.2.next.1).seed) ^ 2
        · simp only [if_pos hr]
          exact setIfAbsent_no_ws a3.1 _ _ c (by constructor <;> intro hh <;> cases hh) ha3
        · simp only [if_neg hr]; exact ha3
  by_cases hh : max 1 (hf q.1 q.2) > 3
  · simp only [if_pos hh]
    by_cases hroll : 200 * (a.2.next.1).seed < 3 * 2147483647
    · simp only [if_pos hroll]
      exact htree _ (hterr a.1 ha) _ _ _
    · simp only [if_neg hroll]
      exact hterr a.1 ha
  · simp only [if_neg hh]
    exact hterr a.1 ha

/-! #### Named stages of the leaf loops (for targeted rewriting) -/

theorem intRangeDesc_sorted (hi lo : ℤ) :
    (intRangeDesc hi lo).Pairwise (· > ·) := by
  unfold intRangeDesc
  refine List.Pairwise.map _ (fun a b hab => ?_) (List.pairwise_lt_range _)
  show hi - (a : ℤ) > hi - (b : ℤ)
  omega

/-- `find?` on a strictly descending list finds the greatest passing
element (and `none` means none passes). -/
theorem find?_desc_spec (p : ℤ → Bool) (l : List ℤ) (hl : l.Pairwise (· > ·)) :
    (∀ y, l.find? p = some y → p y = true ∧ y ∈ l ∧
      ∀ z ∈ l, p z = true → z ≤ y) ∧
    (l.find? p = none → ∀ z ∈ l, p z = false) := by
  induction l with
  | nil => simp
  | cons a t ih =>
    have ht := List.Pairwise.sublist (List.sublist_cons_self a t) hl
    have hgt : ∀ z ∈ t, z < a := by
      intro z hz
      exact List.rel_of_pairwise_cons hl hz
    by_cases hp : p a = true
    · rw [List.find?_cons_of_pos _ hp]
      refine ⟨?_, by simp⟩
      rintro y hy
      injection hy with hy
      subst hy
      refine ⟨hp, List.mem_cons_self a t, ?_⟩
      intro z hz _
      rcases List.mem_cons.mp hz with rfl | hz'
      · exact le_refl _
      · exact le_of_lt (hgt z hz')
    · rw [List.find?_cons_of_neg _ (by simpa using hp)]
      obtain ⟨ihs, ihn⟩ := ih ht
      refine ⟨?_, ?_⟩
      · intro y hy
        obtain ⟨h1, h2, h3⟩ := ihs y hy
        refine ⟨h1, List.mem_cons_of_mem a h2, ?_⟩
        intro z hz hpz
        rcases List.mem_cons.mp hz with rfl | hz'
        · rw [hpz] at hp; cases hp rfl
        · exact h3 z hz' hpz
      · intro hn z hz
        rcases List.mem_cons.mp hz with rfl | hz'
        · simpa using hp
        · exact ihn hn z hz'

/-- C10: `getHighestBlockAt` returns the greatest occupied `y` in
`[-50, 50]` (and this result is occupied and in range, with nothing
occupied above it inside the range), returns `-1` when nothing in that
range is occupied — so blocks outside `[-50, 50]` are never reported — and
the sentinel `-1` coincides with the legitimate answer for a column whose
highest block sits at `y = -1`, as the two concrete stores in the last
conjunct show. -/
theorem c10_highest_block (s : Store) (x z : ℤ) :
    ((∃ y, -50 ≤ y ∧ y ≤ 50 ∧ isBlockAt s x y z = true) →
      (-50 ≤ getHighestBlockAt s x z ∧ getHighestBlockAt s x z ≤ 50 ∧
        isBlockAt s x (getHighestBlockAt s x z) z = true ∧
        ∀ y, -50 ≤ y → y ≤ 50 → isBlockAt s x y z = true →
          y ≤ getHighestBlockAt s x z)) ∧
    ((∀ y, -50 ≤ y → y ≤ 50 → isBlockAt s x y z = false) →
      getHighestBlockAt s x z = -1) ∧
    getHighestBlockAt [(((0 : ℤ), (-1 : ℤ), (0 : ℤ)), BlockType.stone)] 0 0 =
      getHighestBlockAt ([] : Store) 0 0 := by
  obtain ⟨hsome, hnone⟩ :=
    find?_desc_spec (fun y => isBlockAt s x y z) _ (intRangeDesc_sorted 50 (-50))
  refine ⟨?_, ?_, by decide⟩
  · rintro ⟨y, hy1, hy2, hy3⟩
    unfold getHighestBlockAt
    cases hf : (intRangeDesc 50 (-50)).find? (fun y => isBlockAt s x y z) with
    | none =>
      have := hnone hf y ((mem_intRangeDesc _ _ _).mpr ⟨hy1, hy2⟩)
      rw [hy3] at this
      cases this
    | some r =>
      obtain ⟨h1, h2, h3⟩ := hsome r hf
      obtain ⟨hr1, hr2⟩ := (mem_intRangeDesc _ _ _).mp h2
      exact ⟨hr1, hr2, h1, fun y' hy1' hy2' hy3' =>
        h3 y' ((mem_intRangeDesc _ _ _).mpr ⟨hy1', hy2'⟩) hy3'⟩
  · intro hall
    unfold getHighestBlockAt
    cases hf : (intRangeDesc 50 (-50)).find? (fun y => isBlockAt s x y z) with
    | none => rfl
    | some r =>
      obtain ⟨h1, h2, _⟩ := hsome r hf
      obtain ⟨hr1, hr2⟩ := (mem_intRangeDesc _ _ _).mp h2
      rw [hall r hr1 hr2] at h1
      cases h1

/-- C10 witness: a store with a single block at `y = 5`. -/
theorem c10_highest_block_witness :
    -50 ≤ getHighestBlockAt [(((0 : ℤ), (5 : ℤ), (0 : ℤ)), BlockType.grass)] 0 0 ∧
      getHighestBlockAt [(((0 : ℤ), (5 : ℤ), (0 : ℤ)), BlockType.grass)] 0 0 ≤ 50 ∧
      isBlockAt [(((0 : ℤ), (5 : ℤ), (0 : ℤ)), BlockType.grass)] 0
        (getHighestBlockAt [(((0 : ℤ), (5 : ℤ), (0 : ℤ)), BlockType.grass)] 0 0) 0 = true ∧
      ∀ y, -50 ≤ y → y ≤ 50 →
        isBlockAt [(((0 : ℤ), (5 : ℤ), (0 : ℤ)), BlockType.grass)] 0 y 0 = true →
        y ≤ getHighestBlockAt [(((0 : ℤ), (5 : ℤ), (0 : ℤ)), BlockType.grass)] 0 0 :=
  (c10_highest_block [(((0 : ℤ), (5 : ℤ), (0 : ℤ)), BlockType.grass)] 0 0).1
    ⟨5, by norm_num, by norm_num, by decide⟩

/-! ## Claim C7 — `addBlock` on an occupied cell, and occupancy tracking -/

/-- A user mutation: `addBlock(x, y, z, type)` or `removeBlock(x, y, z)`. -/
inductive WorldOp where
  | add (c : Coord) (t : BlockType)
  | remove (c : Coord)
  deriving DecidableEq, Repr

/-- Apply one mutation (dropping the rebuild report). -/
def applyOp (w : World) : WorldOp → World
  | .add c t => (addBlock w c t).1
  | .remove c => (removeBlock w c).1

/-- Apply a mutation sequence left to right. -/
def applyOps (w : World) (ops : List WorldOp) : World := ops.foldl applyOp w

/-- The "most recent successful mutation" semantics at one coordinate: an
`add` succeeds only into an empty cell, a `remove` always empties it. -/
def expectedAt (init : Option BlockType) (ops : List WorldOp) (c : Coord) :
    Option BlockType :=
  ops.foldl (fun acc op =>
    match op with
    | .add c' t => if c' = c ∧ acc = none then some t else acc
    | .remove c' => if c' = c then none else acc) init

theorem Store.keys_set_of_hasKey (s : Store) (c : Coord) (t : BlockType)
    (h : s.hasKey c = true) : (s.set c t).map (·.1) = s.map (·.1) := by
  unfold Store.set
  rw [if_pos h, List.map_map]
  apply List.map_congr_left
  intro p _
  simp only [Function.comp]
  by_cases hp : p.1 = c
  · simp [hp]
  · simp [hp]

theorem Store.keysNodup_set (s : Store) (c : Coord) (t : BlockType)
    (h : Store.KeysNodup s) : Store.KeysNodup (s.set c t) := by
  by_cases hk : s.hasKey c = true
  · unfold Store.KeysNodup
    rw [Store.keys_set_of_hasKey s c t hk]
    exact h
  · unfold Store.KeysNodup Store.set
    rw [if_neg hk, List.map_append]
    refine List.Nodup.append h (by simp) ?_
    intro a ha hb
    simp only [List.map_cons, List.map_nil, List.mem_singleton] at hb
    rcases List.mem_map.mp ha with ⟨p, hp, hpc⟩
    have hkc : s.hasKey c = true := by
      unfold Store.hasKey
      refine List.any_eq_true.mpr ⟨p, hp, ?_⟩
      simp only [decide_eq_true_eq]
      rw [show p.1 = a from hpc, hb]
    exact hk hkc

theorem Store.keysNodup_erase (s : Store) (c : Coord)
    (h : Store.KeysNodup s) : Store.KeysNodup (s.erase c) := by
  unfold Store.KeysNodup Store.erase
  exact List.Nodup.sublist (List.Sublist.map _ (List.filter_sublist s)) h

/-- One mutation step realises the expected-occupancy semantics. -/
theorem applyOp_getBlock (w : World) (op : WorldOp) (c : Coord) :
    (applyOp w op).getBlock c = expectedAt (w.getBlock c) [op] c := by
  cases op with
  | add c' t =>
    show ((addBlock w c' t).1).getBlock c = _
    unfold addBlock expectedAt World.getBlock
    by_cases hk : w.store.hasKey c' = true
    · rw [if_pos hk]
      simp only [List.foldl]
      by_cases hc : c' = c
      · subst hc
        have : (w.store.get c').isSome := (Store.hasKey_iff_get _ _).mp hk
        rcases Option.isSome_iff_exists.mp this with ⟨u, hu⟩
        rw [hu]
        simp
      · simp [hc]
    · rw [if_neg hk]
      simp only [List.foldl, Store.get_set]
      by_cases hc : c' = c
      · subst hc
        rw [Store.hasKey_false_get _ _ (by simpa using hk)]
        simp
      · have : ¬ c = c' := fun hh => hc hh.symm
        simp [hc, this]
  | remove c' =>
    show ((removeBlock w c').1).getBlock c = _
    unfold removeBlock expectedAt World.getBlock
    by_cases hk : w.store.hasKey c' = true
    · rw [if_neg (by simpa using hk)]
      simp only [List.foldl, Store.get_erase]
      by_cases hc : c' = c
      · subst hc
        simp
      · have : ¬ c = c' := fun hh => hc hh.symm
        simp [hc, this]
    · rw [if_pos (by simpa using hk)]
      simp only [List.foldl]
      by_cases hc : c' = c
      · subst hc
        rw [Store.hasKey_false_get _ _ (by simpa using hk)]
        simp
      · simp [hc]

theorem expectedAt_cons (init : Option BlockType) (op : WorldOp)
    (ops : List WorldOp) (c : Coord) :
    expectedAt init (op :: ops) c = expectedAt (expectedAt init [op] c) ops c := by
  cases op <;> rfl

/-- The occupancy trace semantics for whole mutation sequences. -/
theorem applyOps_getBlock (w : World) (ops : List WorldOp) (c : Coord) :
    (applyOps w ops).getBlock c = expectedAt (w.getBlock c) ops c := by
  induction ops generalizing w with
  | nil => rfl
  | cons op ops ih =>
    show (applyOps (applyOp w op) ops).getBlock c = _
    rw [ih, expectedAt_cons, applyOp_getBlock]

theorem applyOp_keysNodup (w : World) (op : WorldOp)
    (h : Store.KeysNodup w.store) : Store.KeysNodup (applyOp w op).store := by
  cases op with
  | add c t =>
    show Store.KeysNodup ((addBlock w c t).1).store
    unfold addBlock
    by_cases hk : w.store.hasKey c = true
    · rw [if_pos hk]
      exact h
    · rw [if_neg hk]
      exact Store.keysNodup_set _ _ _ h
  | remove c =>
    show Store.KeysNodup ((removeBlock w c).1).store
    unfold removeBlock
    by_cases hk : w.store.hasKey c = true
    · rw [if_neg (by simpa using hk)]
      exact Store.keysNodup_erase _ _ h
    · rw [if_pos (by simpa using hk)]
      exact h

theorem applyOps_keysNodup (w : World) (ops : List WorldOp)
    (h : Store.KeysNodup w.store) : Store.KeysNodup (applyOps w ops).store := by
  induction ops generalizing w with
  | nil => exact h
  | cons op ops ih => exact ih _ (applyOp_keysNodup w op h)

/-- C7: placing into an occupied cell is a silent no-op — the world state is
untouched (so the existing type, the block count, every `getBlock` query are
unchanged) and no chunk-mesh rebuild is triggered (empty rebuild report);
and after any mutation sequence, `getBlock` returns exactly the most recent
successful mutation outcome at each coordinate (with at most one block per
coordinate, preserved from the `Map` key-uniqueness invariant). -/
theorem c7_addBlock_occupied (w : World) (c : Coord) (t : BlockType)
    (ops : List WorldOp) (h : w.store.hasKey c = true) :
    addBlock w c t = (w, []) ∧
    (∀ c', (applyOps w ops).getBlock c' = expectedAt (w.getBlock c') ops c') ∧
    (Store.KeysNodup w.store → Store.KeysNodup (applyOps w ops).store) := by
  refine ⟨?_, fun c' => applyOps_getBlock w ops c',
    fun hn => applyOps_keysNodup w ops hn⟩
  unfold addBlock
  rw [if_pos h]

/-- C7 witness: a world holding one grass block at the origin; re-adding at
the origin is a no-op and a remove-then-add trace is tracked. -/
theorem c7_addBlock_occupied_witness :
    addBlock ⟨[(((0 : ℤ), (0 : ℤ), (0 : ℤ)), BlockType.grass)], []⟩
        ((0 : ℤ), (0 : ℤ), (0 : ℤ)) BlockType.stone =
      (⟨[(((0 : ℤ), (0 : ℤ), (0 : ℤ)), BlockType.grass)], []⟩, []) := by
  have h := c7_addBlock_occupied
    ⟨[(((0 : ℤ), (0 : ℤ), (0 : ℤ)), BlockType.grass)], []⟩
    ((0 : ℤ), (0 : ℤ), (0 : ℤ)) BlockType.stone
    [WorldOp.remove ((0 : ℤ), (0 : ℤ), (0 : ℤ)),
     WorldOp.add ((0 : ℤ), (0 : ℤ), (0 : ℤ)) BlockType.dirt]
    (by decide)
  exact h.1

/-! ## Claim C2 — transparency and the occlusion predicate -/

/-- Per-type opacity as the specification describes it: `leaves` is the
transparent material of `world.js`, and the specification additionally
names `water` and `glass` as transparent types. -/
def specTransparent : BlockType → Bool
  | .leaves => true
  | .water => true
  | .glass => true
  | _ => false

/-- The specification's transparency rule over the chunk-mesh face-culling
decision: a transparent neighbor of a different type never occludes, a
same-type neighbor always occludes. -/
def SpecClaimC2 : Prop :=
  ∀ (s : Store) (cx cz : ℤ) (f : FaceData) (c : Coord) (tb tn : BlockType),
    f ∈ faces →
    s.get c = some tb →
    s.get (f.nbr c) = some tn →
    (tn ≠ tb → specTransparent tn = true →
      chunkFaceVisible s cx cz tb f c = true) ∧
    (tn = tb → chunkFaceVisible s cx cz tb f c = false)

/-- Every block record collected by `getBlocksInChunk` is present in the
store with its own coordinates and type. -/
theorem mem_getBlocksInChunk (s : Store) (cx cz : ℤ) (b : Block)
    (h : b ∈ getBlocksInChunk s cx cz) : s.get (b.x, b.y, b.z) = some b.type := by
  unfold getBlocksInChunk at h
  rcases List.mem_flatMap.mp h with ⟨x, _, h⟩
  rcases List.mem_flatMap.mp h with ⟨z, _, h⟩
  rcases List.mem_filterMap.mp h with ⟨y, _, h⟩
  cases hg : s.get (x, y, z) with
  | none => rw [hg] at h; cases h
  | some u =>
    rw [hg] at h
    injection h with h
    rw [← h]
    exact hg

/-- Every coordinate in the mesher's per-type input list holds a block of
that type in the store. -/
theorem mem_chunkTypeBlocks (s : Store) (cx cz : ℤ) (t : BlockType)
    (c : Coord) (h : c ∈ chunkTypeBlocks s cx cz t) : s.get c = some t := by
  unfold chunkTypeBlocks at h
  rcases List.mem_map.mp h with ⟨b, hb, rfl⟩
  obtain ⟨hmem, htype⟩ := List.mem_filter.mp hb
  have := mem_getBlocksInChunk s cx cz b hmem
  rwa [show b.type = t by simpa using htype] at this

/-- C2 amended: the chunk-mesh pipeline's face culling is type-blind — a
face is culled exactly when any block (of any type, transparent or not)
occupies the neighbor coordinate.  In particular a same-type neighbor
occludes, and a transparent different-type neighbor also occludes. -/
theorem c2_amended (s : Store) (cx cz : ℤ) (t : BlockType) (f : FaceData)
    (c : Coord) : chunkFaceVisible s cx cz t f c = !(s.hasKey (f.nbr c)) := by
  unfold chunkFaceVisible faceVisible
  cases hk : s.hasKey (f.nbr c) with
  | true => simp [hk]
  | false =>
    have hbs : (chunkTypeBlocks s cx cz t).any
        (fun bl => decide (bl = f.nbr c)) = false := by
      cases hb : (chunkTypeBlocks s cx cz t).any (fun bl => decide (bl = f.nbr c)) with
      | false => rfl
      | true =>
        rcases List.any_eq_true.mp hb with ⟨bl, hbl, hble⟩
        have hbl' : bl = f.nbr c := by simpa using hble
        have := mem_chunkTypeBlocks s cx cz t bl hbl
        rw [hbl'] at this
        have : s.hasKey (f.nbr c) = true :=
          (Store.hasKey_iff_get _ _).mpr (by simp [this])
        rw [this] at hk
        cases hk
    simp [hbs, hk]

/-- C2 counterexample: a grass block at the origin next to a leaves block at
`(1, 0, 0)` (`leaves` is the transparent material of `world.js`): the
specification demands the shared face be rendered, but `buildChunkMesh`'s
`neighborCheck` is `isBlockAt`, which culls it. -/
theorem c2_counterexample : ¬ SpecClaimC2 := by
  intro h
  have hinst := h [(((0 : ℤ), (0 : ℤ), (0 : ℤ)), BlockType.grass),
      (((1 : ℤ), (0 : ℤ), (0 : ℤ)), BlockType.leaves)] 0 0
    ⟨1, 0, 0, 2, 1⟩ ((0 : ℤ), (0 : ℤ), (0 : ℤ)) BlockType.grass BlockType.leaves
    (by simp [faces]) (by decide) (by decide)
  have hvis := hinst.1 (by decide) (by decide)
  have hcull : chunkFaceVisible
      [(((0 : ℤ), (0 : ℤ), (0 : ℤ)), BlockType.grass),
       (((1 : ℤ), (0 : ℤ), (0 : ℤ)), BlockType.leaves)] 0 0 BlockType.grass
      ⟨1, 0, 0, 2, 1⟩ ((0 : ℤ), (0 : ℤ), (0 : ℤ)) = false := by
    rw [c2_amended]
    decide
  rw [hvis] at hcull
  cases hcull

/-! ## Claim C4 — `updateChunks` streaming boundaries -/

theorem World.hasChunk_iff_mem (w : World) (q : ℤ × ℤ) :
    w.hasChunk q = true ↔ q ∈ w.chunks := by
  unfold World.hasChunk
  rw [List.any_eq_true]
  constructor
  · rintro ⟨q', hq', he⟩
    rwa [show q' = q by simpa using he] at hq'
  · intro hq
    exact ⟨q, hq, by simp⟩

theorem foldl_flatMap {α β γ : Type} (g : β → List γ) (f : α → γ → α)
    (l : List β) (init : α) :
    (l.flatMap g).foldl f init = l.foldl (fun a x => (g x).foldl f a) init := by
  induction l generalizing init with
  | nil => rfl
  | cons b t ih => simp [List.flatMap_cons, List.foldl_append, ih]

/-- The generate-if-absent fold underlying the load phase of `updateChunks`. -/
def genFold (hf : HeightFn) (seed : ℤ) (w : World) (l : List (ℤ × ℤ)) : World :=
  l.foldl (fun w q =>
    if w.hasChunk q then w else generateChunk hf seed w q.1 q.2) w

/-- The flattened chunk-coordinate square scanned by the load loops. -/
def squareList (cx cz : ℤ) (R : ℕ) : List (ℤ × ℤ) :=
  (intRange (cx - R) (cx + R)).flatMap
    (fun x => (intRange (cz - R) (cz + R)).map (fun z => (x, z)))

theorem updateChunks_eq_genFold (hf : HeightFn) (seed : ℤ) (R : ℕ)
    (w : World) (px pz : ℤ) :
    updateChunks hf seed R w px pz =
      { genFold hf seed w (squareList (px.fdiv 16) (pz.fdiv 16) R) with
        chunks := (genFold hf seed w (squareList (px.fdiv 16) (pz.fdiv 16) R)).chunks.filter
          (fun q => ¬ (|q.1 - px.fdiv 16| > (R : ℤ) + 2 ∨
            |q.2 - pz.fdiv 16| > (R : ℤ) + 2)) } := by
  unfold updateChunks genFold squareList
  rw [foldl_flatMap]
  simp only [List.foldl_map]

theorem generateChunk_chunks (hf : HeightFn) (seed : ℤ) (w : World)
    (cx cz : ℤ) : (generateChunk hf seed w cx cz).chunks = w.chunks ++ [(cx, cz)] :=
  rfl

/-- Chunk membership after the generate-if-absent fold: the old chunks plus
the processed keys. -/
theorem mem_genFold_chunks (hf : HeightFn) (seed : ℤ) (w : World)
    (l : List (ℤ × ℤ)) (q : ℤ × ℤ) :
    q ∈ (genFold hf seed w l).chunks ↔ q ∈ w.chunks ∨ q ∈ l := by
  induction l generalizing w with
  | nil => simp [genFold]
  | cons a t ih =>
    have hstep : genFold hf seed w (a :: t) =
        genFold hf seed (if w.hasChunk a then w
          else generateChunk hf seed w a.1 a.2) t := rfl
    rw [hstep]
    by_cases ha : w.hasChunk a = true
    · rw [if_pos ha, ih]
      have hmem := (World.hasChunk_iff_mem w a).mp ha
      simp only [List.mem_cons]
      constructor
      · rintro (h | h)
        · exact Or.inl h
        · exact Or.inr (Or.inr h)
      · rintro (h | rfl | h)
        · exact Or.inl h
        · exact Or.inl hmem
        · exact Or.inr h
    · rw [if_neg ha, ih, generateChunk_chunks]
      simp only [List.mem_append, List.mem_singleton, List.mem_cons, Prod.mk.eta]
      tauto

/-- The generate-if-absent fold is the identity when everything is already
registered. -/
theorem genFold_of_all_present (hf : HeightFn) (seed : ℤ) (w : World)
    (l : List (ℤ × ℤ)) (h : ∀ q ∈ l, w.hasChunk q = true) :
    genFold hf seed w l = w := by
  induction l with
  | nil => rfl
  | cons a t ih =>
    show genFold hf seed (if w.hasChunk a then w else _) t = w
    rw [if_pos (h a (List.mem_cons_self a t))]
    exact ih (fun q hq => h q (List.mem_cons_of_mem a hq))

theorem mem_squareList (cx cz : ℤ) (R : ℕ) (q : ℤ × ℤ) :
    q ∈ squareList cx cz R ↔ |q.1 - cx| ≤ (R : ℤ) ∧ |q.2 - cz| ≤ (R : ℤ) := by
  unfold squareList
  rw [List.mem_flatMap]
  constructor
  · rintro ⟨x, hx, hq⟩
    rcases List.mem_map.mp hq with ⟨z, hz, rfl⟩
    obtain ⟨hx1, hx2⟩ := (mem_intRange _ _ _).mp hx
    obtain ⟨hz1, hz2⟩ := (mem_intRange _ _ _).mp hz
    constructor <;> simp only [abs_le] <;> omega
  · rintro ⟨h1, h2⟩
    rw [abs_le] at h1 h2
    exact ⟨q.1, (mem_intRange _ _ _).mpr ⟨by omega, by omega⟩,
      List.mem_map.mpr ⟨q.2, (mem_intRange _ _ _).mpr ⟨by omega, by omega⟩, rfl⟩⟩

theorem filter_idem {α : Type} (p : α → Bool) (l : List α) :
    (l.filter p).filter p = l.filter p := by
  rw [List.filter_filter]
  apply List.filter_congr
  intro a _
  cases p a <;> rfl

/-- C4: after `updateChunks` at player chunk `(cx, cz)` with render distance
`R` (hysteresis margin `2` in the source): every chunk within Chebyshev
distance `R` is registered; every chunk beyond `R + 2` is not; chunks in the
hysteresis band `(R, R + 2]` keep their previous registration; and a repeated
call at the same position is the identity on the entire world state. -/
theorem c4_streaming (hf : HeightFn) (seed : ℤ) (R : ℕ) (w : World)
    (px pz : ℤ) :
    (∀ q : ℤ × ℤ, |q.1 - px.fdiv 16| ≤ (R : ℤ) → |q.2 - pz.fdiv 16| ≤ (R : ℤ) →
      q ∈ (updateChunks hf seed R w px pz).chunks) ∧
    (∀ q : ℤ × ℤ, (|q.1 - px.fdiv 16| > (R : ℤ) + 2 ∨ |q.2 - pz.fdiv 16| > (R : ℤ) + 2) →
      q ∉ (updateChunks hf seed R w px pz).chunks) ∧
    (∀ q : ℤ × ℤ, ¬ (|q.1 - px.fdiv 16| ≤ (R : ℤ) ∧ |q.2 - pz.fdiv 16| ≤ (R : ℤ)) →
      |q.1 - px.fdiv 16| ≤ (R : ℤ) + 2 → |q.2 - pz.fdiv 16| ≤ (R : ℤ) + 2 →
      (q ∈ (updateChunks hf seed R w px pz).chunks ↔ q ∈ w.chunks)) ∧
    updateChunks hf seed R (updateChunks hf seed R w px pz) px pz =
      updateChunks hf seed R w px pz := by
  set cx := px.fdiv 16 with hcx
  set cz := pz.fdiv 16 with hcz
  set keep : (ℤ × ℤ) → Bool := fun q =>
    ¬ (|q.1 - cx| > (R : ℤ) + 2 ∨ |q.2 - cz| > (R : ℤ) + 2) with hkeep
  have hw' : updateChunks hf seed R w px pz =
      { genFold hf seed w (squareList cx cz R) with
        chunks := (genFold hf seed w (squareList cx cz R)).chunks.filter keep } :=
    updateChunks_eq_genFold hf seed R w px pz
  have hkeep_true : ∀ q : ℤ × ℤ, keep q = true ↔
      |q.1 - cx| ≤ (R : ℤ) + 2 ∧ |q.2 - cz| ≤ (R : ℤ) + 2 := by
    intro q
    rw [hkeep]
    simp only [gt_iff_lt, decide_eq_true_eq, not_or, not_lt]
  refine ⟨?_, ?_, ?_, ?_⟩
  · intro q h1 h2
    rw [hw']
    apply List.mem_filter.mpr
    refine ⟨(mem_genFold_chunks _ _ _ _ _).mpr
      (Or.inr ((mem_squareList _ _ _ _).mpr ⟨h1, h2⟩)), ?_⟩
    rw [hkeep_true]
    constructor <;> omega
  · intro q h hq
    rw [hw'] at hq
    have := (List.mem_filter.mp hq).2
    rw [hkeep_true] at this
    rcases h with h | h <;> omega
  · intro q hband h1 h2
    rw [hw']
    constructor
    · intro hq
      have := (List.mem_filter.mp hq).1
      rcases (mem_genFold_chunks _ _ _ _ _).mp this with h | h
      · exact h
      · exact absurd ((mem_squareList _ _ _ _).mp h) hband
    · intro hq
      apply List.mem_filter.mpr
      refine ⟨(mem_genFold_chunks _ _ _ _ _).mpr (Or.inl hq), ?_⟩
      rw [hkeep_true]
      exact ⟨h1, h2⟩
  · rw [hw', updateChunks_eq_genFold]
    have hall : ∀ q ∈ squareList cx cz R,
        World.hasChunk { genFold hf seed w (squareList cx cz R) with
          chunks := (genFold hf seed w (squareList cx cz R)).chunks.filter keep } q = true := by
      intro q hq
      rw [World.hasChunk_iff_mem]
      apply List.mem_filter.mpr
      refine ⟨(mem_genFold_chunks _ _ _ _ _).mpr (Or.inr hq), ?_⟩
      rw [hkeep_true]
      obtain ⟨h1, h2⟩ := (mem_squareList _ _ _ _).mp hq
      constructor <;> omega
    rw [genFold_of_all_present _ _ _ _ hall]
    generalize genFold hf seed w (squareList cx cz R) = A
    obtain ⟨as, ac⟩ := A
    exact congrArg (World.mk as) (filter_idem keep ac)

/-- C4 witness: an empty world at the origin with render distance `0`:
chunk `(0, 0)` is loaded afterwards. -/
theorem c4_streaming_witness :
    ((0 : ℤ), (0 : ℤ)) ∈ (updateChunks (fun _ _ => 1) 0 0 ⟨[], []⟩ 0 0).chunks :=
  (c4_streaming (fun _ _ => 1) 0 0 ⟨[], []⟩ 0 0).1 ((0 : ℤ), (0 : ℤ))
    (by decide) (by decide)

/-! ## Claim C5 — sea level, sand and water -/

/-- The surface cell of any column of a generated chunk holds its terrain
surface layer. -/
theorem generateChunk_surface (hf : HeightFn) (seed : ℤ) (w : World)
    (cx cz x z : ℤ)
    (hx1 : cx * 16 ≤ x) (hx2 : x ≤ (cx + 1) * 16 - 1)
    (hz1 : cz * 16 ≤ z) (hz2 : z ≤ (cz + 1) * 16 - 1) :
    (generateChunk hf seed w cx cz).store.get (x, max 1 (hf x z) - 1, z) =
      some (terrainType (max 1 (hf x z) - 1) (max 1 (hf x z))) := by
  unfold generateChunk
  exact colFold_surface hf (chunkColumns cx cz) x z
    ((mem_chunkColumns cx cz x z).mpr ⟨hx1, hx2, hz1, hz2⟩)
    (fun p _ hp => by
      rcases p with ⟨a, b⟩
      obtain ⟨h1, h2⟩ := hp
      rw [show a = x from h1, show b = z from h2])
    (w.store, ⟨seed + cx * 4321 + cz * 9876⟩)

/-- On the all-ones height map, the origin cell of a fresh chunk `(0, 0)`
generated over any prior world is the column's stone surface. -/
theorem genChunk_one_origin (seed : ℤ) (w : World) :
    (generateChunk (fun _ _ => 1) seed w 0 0).store.get (0, 0, 0) =
      some BlockType.stone := by
  have h := generateChunk_surface (fun _ _ => 1) seed w 0 0 0 0
    (by norm_num) (by norm_num) (by norm_num) (by norm_num)
  exact h

/-- The spec's C5: some fixed sea level governs a sand-vs-grass surface
rule, and columns are flooded up to sea level with insert-only water. -/
def SpecClaimC5 : Prop :=
  ∃ seaLevel : ℤ, ∀ (hf : HeightFn) (seed : ℤ) (cx cz x z : ℤ),
    cx * 16 ≤ x → x ≤ (cx + 1) * 16 - 1 → cz * 16 ≤ z → z ≤ (cz + 1) * 16 - 1 →
    (generateChunk hf seed ⟨[], []⟩ cx cz).store.get (x, max 1 (hf x z) - 1, z) =
      some (if max 1 (hf x z) ≤ seaLevel + 1 then BlockType.sand else BlockType.grass) ∧
    (∀ y : ℤ, max 1 (hf x z) ≤ y → y ≤ seaLevel →
      (generateChunk hf seed ⟨[], []⟩ cx cz).store.get (x, y, z) = some BlockType.water)

/-- C5 counterexample: no sea level satisfies the claim — a height-1
column's surface block is stone (the `y = 0` terrain layer), which is
neither the claimed sand nor the claimed grass. -/
theorem c5_counterexample : ¬ SpecClaimC5 := by
  rintro ⟨sl, h⟩
  have hc := (h (fun _ _ => 1) 0 0 0 0 0
    (by norm_num) (by norm_num) (by norm_num) (by norm_num)).1
  have hs := genChunk_one_origin 0 ⟨[], []⟩
  rw [show ((0 : ℤ), max 1 ((fun _ _ => (1 : ℤ)) 0 0) - 1, (0 : ℤ)) =
    ((0 : ℤ), (0 : ℤ), (0 : ℤ)) from rfl] at hc
  rw [hs] at hc
  by_cases hsl : max 1 ((fun _ _ => (1 : ℤ)) 0 0) ≤ sl + 1
  · rw [if_pos hsl] at hc
    exact BlockType.noConfusion (Option.some.inj hc)
  · rw [if_neg hsl] at hc
    exact BlockType.noConfusion (Option.some.inj hc)

/-- C5 amended: the generator has no sea level, no sand and no water at
all.  The surface block of every column is stone for a height-1 column
(its single cell is the `y = 0` stone layer) and grass otherwise, and a
generated chunk contains water or sand only where the prior world already
did. -/
theorem c5_amended (hf : HeightFn) (seed : ℤ) (w : World) (cx cz x z : ℤ)
    (hx1 : cx * 16 ≤ x) (hx2 : x ≤ (cx + 1) * 16 - 1)
    (hz1 : cz * 16 ≤ z) (hz2 : z ≤ (cz + 1) * 16 - 1) :
    (generateChunk hf seed w cx cz).store.get (x, max 1 (hf x z) - 1, z) =
      some (if max 1 (hf x z) = 1 then BlockType.stone else BlockType.grass) ∧
    (∀ c : Coord,
      (¬ w.store.get c = some BlockType.water ∧ ¬ w.store.get c = some BlockType.sand) →
      ¬ (generateChunk hf seed w cx cz).store.get c = some BlockType.water ∧
      ¬ (generateChunk hf seed w cx cz).store.get c = some BlockType.sand) := by
  constructor
  · rw [generateChunk_surface hf seed w cx cz x z hx1 hx2 hz1 hz2,
      terrainType_surface _ (le_max_left 1 _)]
  · intro c hc
    exact generateChunk_no_ws hf seed w cx cz c hc

/-- C5 amended, witnessed on the all-ones height map over the empty
world: the origin surface is stone and no water appears above it. -/
theorem c5_amended_witness :
    (generateChunk (fun _ _ => 1) 0 ⟨[], []⟩ 0 0).store.get (0, 0, 0) =
      some BlockType.stone ∧
    ¬ (generateChunk (fun _ _ => 1) 0 ⟨[], []⟩ 0 0).store.get (0, 5, 0) =
      some BlockType.water := by
  have h := c5_amended (fun _ _ => 1) 0 ⟨[], []⟩ 0 0 0 0
    (by norm_num) (by norm_num) (by norm_num) (by norm_num)
  exact ⟨h.1, (h.2 (0, 5, 0) ⟨by decide, by decide⟩).1⟩

/-! ## Claim C3 — generation-order determinism -/

theorem perm_any {α : Type _} (f : α → Bool) {l₁ l₂ : List α}
    (hp : l₁.Perm l₂) : l₁.any f = l₂.any f := by
  cases hb : l₂.any f with
  | true =>
    rcases List.any_eq_true.mp hb with ⟨x, hx, hf⟩
    exact List.any_eq_true.mpr ⟨x, hp.mem_iff.mpr hx, hf⟩
  | false =>
    cases hb' : l₁.any f with
    | false => rfl
    | true =>
      rcases List.any_eq_true.mp hb' with ⟨x, hx, hf⟩
      rw [List.any_eq_true.mpr ⟨x, hp.mem_iff.mp hx, hf⟩] at hb
      cases hb

theorem foldl_min_spec (t : List ℤ) : ∀ acc : ℤ,
    (t.foldl min acc = acc ∨ t.foldl min acc ∈ t) ∧
    t.foldl min acc ≤ acc ∧ (∀ x ∈ t, t.foldl min acc ≤ x) := by
  induction t with
  | nil => simp
  | cons a t ih =>
    intro acc
    simp only [List.foldl_cons]
    obtain ⟨h1, h2, h3⟩ := ih (min acc a)
    refine ⟨?_, h2.trans (min_le_left _ _), ?_⟩
    · rcases h1 with h | h
      · rcases min_choice acc a with hm | hm
        · left
          rw [h, hm]
        · right
          rw [h, hm]
          exact List.mem_cons_self a t
      · exact Or.inr (List.mem_cons_of_mem a h)
    · intro x hx
      rcases List.mem_cons.mp hx with rfl | hx'
      · exact h2.trans (min_le_right _ _)
      · exact h3 x hx'

theorem foldl_max_spec (t : List ℤ) : ∀ acc : ℤ,
    (t.foldl max acc = acc ∨ t.foldl max acc ∈ t) ∧
    acc ≤ t.foldl max acc ∧ (∀ x ∈ t, x ≤ t.foldl max acc) := by
  induction t with
  | nil => simp
  | cons a t ih =>
    intro acc
    simp only [List.foldl_cons]
    obtain ⟨h1, h2, h3⟩ := ih (max acc a)
    refine ⟨?_, (le_max_left _ _).trans h2, ?_⟩
    · rcases h1 with h | h
      · rcases max_choice acc a with hm | hm
        · left
          rw [h, hm]
        · right
          rw [h, hm]
          exact List.mem_cons_self a t
      · exact Or.inr (List.mem_cons_of_mem a h)
    · intro x hx
      rcases List.mem_cons.mp hx with rfl | hx'
      · exact (le_max_right _ _).trans h2
      · exact h3 x hx'

theorem foldMin_mem (l : List ℤ) (hl : ¬ l = []) :
    foldMin l ∈ l ∧ ∀ x ∈ l, foldMin l ≤ x := by
  cases l with
  | nil => exact absurd rfl hl
  | cons a t =>
    obtain ⟨h1, h2, h3⟩ := foldl_min_spec t a
    refine ⟨?_, ?_⟩
    · rcases h1 with h | h
      · rw [show foldMin (a :: t) = t.foldl min a from rfl, h]
        exact List.mem_cons_self a t
      · exact List.mem_cons_of_mem a h
    · intro x hx
      rcases List.mem_cons.mp hx with rfl | hx'
      · exact h2
      · exact h3 x hx'

theorem foldMax_mem (l : List ℤ) (hl : ¬ l = []) :
    foldMax l ∈ l ∧ ∀ x ∈ l, x ≤ foldMax l := by
  cases l with
  | nil => exact absurd rfl hl
  | cons a t =>
    obtain ⟨h1, h2, h3⟩ := foldl_max_spec t a
    refine ⟨?_, ?_⟩
    · rcases h1 with h | h
      · rw [show foldMax (a :: t) = t.foldl max a from rfl, h]
        exact List.mem_cons_self a t
      · exact List.mem_cons_of_mem a h
    · intro x hx
      rcases List.mem_cons.mp hx with rfl | hx'
      · exact h2
      · exact h3 x hx'

theorem foldMin_perm {l₁ l₂ : List ℤ} (hp : l₁.Perm l₂) (h₁ : ¬ l₁ = []) :
    foldMin l₁ = foldMin l₂ := by
  have h₂ : ¬ l₂ = [] := by
    intro h
    exact h₁ (List.Perm.eq_nil (h ▸ hp))
  obtain ⟨hm₁, hle₁⟩ := foldMin_mem l₁ h₁
  obtain ⟨hm₂, hle₂⟩ := foldMin_mem l₂ h₂
  exact le_antisymm (hle₁ _ (hp.mem_iff.mpr hm₂)) (hle₂ _ (hp.mem_iff.mp hm₁))

theorem foldMax_perm {l₁ l₂ : List ℤ} (hp : l₁.Perm l₂) (h₁ : ¬ l₁ = []) :
    foldMax l₁ = foldMax l₂ := by
  have h₂ : ¬ l₂ = [] := by
    intro h
    exact h₁ (List.Perm.eq_nil (h ▸ hp))
  obtain ⟨hm₁, hle₁⟩ := foldMax_mem l₁ h₁
  obtain ⟨hm₂, hle₂⟩ := foldMax_mem l₂ h₂
  exact le_antisymm (hle₂ _ (hp.mem_iff.mp hm₁)) (hle₁ _ (hp.mem_iff.mpr hm₂))

theorem boundsOf_perm {l₁ l₂ : List Coord} (hp : l₁.Perm l₂) (h₁ : ¬ l₁ = []) :
    boundsOf l₁ = boundsOf l₂ := by
  have hmap : ∀ f : Coord → ℤ, ¬ l₁.map f = [] := by
    intro f h
    exact h₁ (List.map_eq_nil_iff.mp h)
  unfold boundsOf
  rw [foldMin_perm (hp.map _) (hmap _), foldMax_perm (hp.map _) (hmap _),
    foldMin_perm (hp.map _) (hmap _), foldMax_perm (hp.map _) (hmap _),
    foldMin_perm (hp.map _) (hmap _), foldMax_perm (hp.map _) (hmap _)]

/-- C6: permuting the input block list leaves the built geometry
literally identical — the mesher scans the bounding-box grid, never the
input list itself, and both the block set and the bounds are functions of
the set — so in particular vertex count, triangle count and bounding
volume agree. -/
theorem c6_order_independence (blocks₁ blocks₂ : List Coord)
    (hp : blocks₁.Perm blocks₂) (blockSize : ℚ) (nc : Coord → Bool)
    (isHalfHeight : Bool) :
    createMeshGeometry blocks₁ blockSize nc isHalfHeight =
      createMeshGeometry blocks₂ blockSize nc isHalfHeight ∧
    vertexCount (createMeshGeometry blocks₁ blockSize nc isHalfHeight) =
      vertexCount (createMeshGeometry blocks₂ blockSize nc isHalfHeight) ∧
    triangleCount (createMeshGeometry blocks₁ blockSize nc isHalfHeight) =
      triangleCount (createMeshGeometry blocks₂ blockSize nc isHalfHeight) ∧
    boundingBox (createMeshGeometry blocks₁ blockSize nc isHalfHeight) =
      boundingBox (createMeshGeometry blocks₂ blockSize nc isHalfHeight) := by
  have hgeom : createMeshGeometry blocks₁ blockSize nc isHalfHeight =
      createMeshGeometry blocks₂ blockSize nc isHalfHeight := by
    by_cases he : blocks₁ = []
    · have he₂ : blocks₂ = [] := by
        rw [he] at hp
        exact hp.symm.eq_nil
      rw [he, he₂]
    · have he₂ : ¬ blocks₂ = [] := by
        intro h
        rw [h] at hp
        exact he hp.eq_nil
      have hbs : (fun c => blocks₁.any (fun bl => decide (bl = c))) =
          (fun c => blocks₂.any (fun bl => decide (bl = c))) :=
        funext (fun c => perm_any _ hp)
      unfold createMeshGeometry
      rw [if_neg (show ¬ (blocks₁.isEmpty = true) from by simpa using he),
        if_neg (show ¬ (blocks₂.isEmpty = true) from by simpa using he₂),
        hbs, boundsOf_perm hp he]
  exact ⟨hgeom, by rw [hgeom], by rw [hgeom], by rw [hgeom]⟩

/-- C6 witness: two orderings of a concrete two-block list. -/
theorem c6_order_independence_witness :
    createMeshGeometry [((0 : ℤ), (0 : ℤ), (0 : ℤ)), ((1 : ℤ), (0 : ℤ), (0 : ℤ))]
        1 (fun _ => false) false =
      createMeshGeometry [((1 : ℤ), (0 : ℤ), (0 : ℤ)), ((0 : ℤ), (0 : ℤ), (0 : ℤ))]
        1 (fun _ => false) false :=
  (c6_order_independence
    [((0 : ℤ), (0 : ℤ), (0 : ℤ)), ((1 : ℤ), (0 : ℤ), (0 : ℤ))]
    [((1 : ℤ), (0 : ℤ), (0 : ℤ)), ((0 : ℤ), (0 : ℤ), (0 : ℤ))]
    (by decide) 1 (fun _ => false) false).1

/-! ## Claim C1 — greedy covering exactness -/

theorem growWidth_ge (ok : ℤ → Bool) (hi u : ℤ) :
    ∀ (fuel w : ℕ), w ≤ growWidth ok hi u w fuel := by
  intro fuel
  induction fuel with
  | zero => intro w; exact le_refl w
  | succ n ih =>
    intro w
    unfold growWidth
    by_cases hc : (ok (u + (w : ℤ)) && decide (u + (w : ℤ) ≤ hi)) = true
    · rw [if_pos hc]
      exact (Nat.le_succ w).trans (ih (w + 1))
    · rw [if_neg hc]

theorem growWidth_ok (ok : ℤ → Bool) (hi u : ℤ) :
    ∀ (fuel w j : ℕ), w ≤ j → j < growWidth ok hi u w fuel →
      ok (u + (j : ℤ)) = true ∧ u + (j : ℤ) ≤ hi := by
  intro fuel
  induction fuel with
  | zero =>
    intro w j h1 h2
    rw [show growWidth ok hi u w 0 = w from rfl] at h2
    omega
  | succ n ih =>
    intro w j h1 h2
    rw [growWidth] at h2
    by_cases hc : (ok (u + (w : ℤ)) && decide (u + (w : ℤ) ≤ hi)) = true
    · rw [if_pos hc] at h2
      rcases Nat.eq_or_lt_of_le h1 with rfl | hlt
      · obtain ⟨hok, hle⟩ := Bool.and_eq_true_iff.mp hc
        exact ⟨hok, of_decide_eq_true hle⟩
      · exact ih (w + 1) j hlt h2
    · rw [if_neg hc] at h2
      omega

theorem growHeight_ge (ok : ℤ → ℤ → Bool) (hi u : ℤ) (w : ℕ) (v : ℤ) :
    ∀ (fuel h : ℕ), h ≤ growHeight ok hi u w v h fuel := by
  intro fuel
  induction fuel with
  | zero => intro h; exact le_refl h
  | succ n ih =>
    intro h
    unfold growHeight
    by_cases hc : (rowOk ok u w (v + (h : ℤ)) && decide (v + (h : ℤ) ≤ hi)) = true
    · rw [if_pos hc]
      exact (Nat.le_succ h).trans (ih (h + 1))
    · rw [if_neg hc]

theorem growHeight_ok (ok : ℤ → ℤ → Bool) (hi u : ℤ) (w : ℕ) (v : ℤ) :
    ∀ (fuel h j : ℕ), h ≤ j → j < growHeight ok hi u w v h fuel →
      rowOk ok u w (v + (j : ℤ)) = true ∧ v + (j : ℤ) ≤ hi := by
  intro fuel
  induction fuel with
  | zero =>
    intro h j h1 h2
    rw [show growHeight ok hi u w v h 0 = h from rfl] at h2
    omega
  | succ n ih =>
    intro h j h1 h2
    rw [growHeight] at h2
    by_cases hc : (rowOk ok u w (v + (h : ℤ)) && decide (v + (h : ℤ) ≤ hi)) = true
    · rw [if_pos hc] at h2
      rcases Nat.eq_or_lt_of_le h1 with rfl | hlt
      · obtain ⟨hok, hle⟩ := Bool.and_eq_true_iff.mp hc
        exact ⟨hok, of_decide_eq_true hle⟩
      · exact ih (h + 1) j hlt h2
    · rw [if_neg hc] at h2
      omega

theorem rowOk_spec (ok : ℤ → ℤ → Bool) (u : ℤ) (w : ℕ) (y : ℤ) :
    rowOk ok u w y = true ↔ ∀ k : ℕ, k < w → ok (u + (k : ℤ)) y = true := by
  unfold rowOk
  rw [List.all_eq_true]
  constructor
  · intro h k hk
    exact h k (List.mem_range.mpr hk)
  · intro h k hk
    exact h k (List.mem_range.mp hk)

/-- Integer description of a rectangle's covered cells. -/
theorem mem_rectCells (r : Rect) (p : ℤ × ℤ) :
    p ∈ rectCells r ↔
      r.u ≤ p.1 ∧ p.1 ≤ r.u + (r.w : ℤ) - 1 ∧
      r.v ≤ p.2 ∧ p.2 ≤ r.v + (r.h : ℤ) - 1 := by
  unfold rectCells
  rw [Finset.mem_product, Finset.mem_Icc, Finset.mem_Icc]
  tauto

theorem mem_rectCells_mk (u v : ℤ) (w h : ℕ) (p : ℤ × ℤ) :
    p ∈ rectCells ⟨u, v, w, h⟩ ↔
      u ≤ p.1 ∧ p.1 ≤ u + (w : ℤ) - 1 ∧ v ≤ p.2 ∧ p.2 ≤ v + (h : ℤ) - 1 :=
  mem_rectCells ⟨u, v, w, h⟩ p

theorem mem_rowMajor (loU hiU loV hiV : ℤ) (p : ℤ × ℤ) :
    p ∈ rowMajor loU hiU loV hiV ↔
      loU ≤ p.1 ∧ p.1 ≤ hiU ∧ loV ≤ p.2 ∧ p.2 ≤ hiV := by
  unfold rowMajor
  simp only [List.mem_flatMap, List.mem_map]
  constructor
  · rintro ⟨v, hv, u, hu, heq⟩
    obtain ⟨hv1, hv2⟩ := (mem_intRange _ _ _).mp hv
    obtain ⟨hu1, hu2⟩ := (mem_intRange _ _ _).mp hu
    rw [← heq]
    exact ⟨hu1, hu2, hv1, hv2⟩
  · rintro ⟨h1, h2, h3, h4⟩
    exact ⟨p.2, (mem_intRange _ _ _).mpr ⟨h3, h4⟩,
      p.1, (mem_intRange _ _ _).mpr ⟨h1, h2⟩, rfl⟩

/-- The greedy-scan invariant: the processed set is exactly the union of
the emitted rectangles' cells, every emitted cell is mask-set, the
rectangles are pairwise disjoint, and there are no more rectangles than
processed cells. -/
def greedyInv (m : ℤ → ℤ → Bool) (st : List Rect × Finset (ℤ × ℤ)) : Prop :=
  (∀ p : ℤ × ℤ, p ∈ st.2 ↔ ∃ r ∈ st.1, p ∈ rectCells r) ∧
  (∀ r ∈ st.1, ∀ p ∈ rectCells r, m p.1 p.2 = true) ∧
  List.Pairwise (fun r r' => Disjoint (rectCells r) (rectCells r')) st.1 ∧
  st.1.length ≤ st.2.card

theorem greedyInv_init (m : ℤ → ℤ → Bool) : greedyInv m ([], ∅) := by
  refine ⟨by simp, by simp, List.Pairwise.nil, by simp⟩

/-- Every cell of the rectangle grown at an unprocessed mask cell is
mask-set and unprocessed. -/
theorem grown_cells (m : ℤ → ℤ → Bool) (hiU hiV : ℤ)
    (proc : Finset (ℤ × ℤ)) (cell : ℤ × ℤ)
    (hm : m cell.1 cell.2 = true) (hnp : cell ∉ proc) (p : ℤ × ℤ)
    (hp : p ∈ rectCells ⟨cell.1, cell.2,
      growWidth (fun x => m x cell.2 && !(decide ((x, cell.2) ∈ proc))) hiU cell.1 1
        ((hiU - cell.1).toNat + 1),
      growHeight (fun x y => m x y && !(decide ((x, y) ∈ proc))) hiV cell.1
        (growWidth (fun x => m x cell.2 && !(decide ((x, cell.2) ∈ proc))) hiU cell.1 1
          ((hiU - cell.1).toNat + 1)) cell.2 1 ((hiV - cell.2).toNat + 1)⟩) :
    m p.1 p.2 = true ∧ p ∉ proc := by
  set okW : ℤ → Bool := fun x => m x cell.2 && !(decide ((x, cell.2) ∈ proc)) with hokW
  set okH : ℤ → ℤ → Bool := fun x y => m x y && !(decide ((x, y) ∈ proc)) with hokH
  set wN : ℕ := growWidth okW hiU cell.1 1 ((hiU - cell.1).toNat + 1) with hwdef
  set hN : ℕ := growHeight okH hiV cell.1 wN cell.2 1 ((hiV - cell.2).toNat + 1) with hhdef
  rw [mem_rectCells_mk] at hp
  obtain ⟨hp1, hp2, hp3, hp4⟩ := hp
  by_cases hrow : p.2 = cell.2
  · by_cases hcol : p.1 = cell.1
    · have hpc : p = cell := Prod.ext hcol hrow
      rw [hpc]
      exact ⟨hm, hnp⟩
    · have hj : cell.1 + (((p.1 - cell.1).toNat : ℕ) : ℤ) = p.1 := by omega
      have hok := growWidth_ok okW hiU cell.1 ((hiU - cell.1).toNat + 1) 1
        (p.1 - cell.1).toNat (by omega) (by rw [← hwdef]; omega)
      rw [hj] at hok
      have : okW p.1 = true := hok.1
      rw [hokW] at this
      obtain ⟨h1, h2⟩ := Bool.and_eq_true_iff.mp this
      have hpair : p = (p.1, cell.2) := by
        rw [← hrow]
      rw [hpair]
      refine ⟨h1, ?_⟩
      simpa using h2
  · have hj : cell.2 + (((p.2 - cell.2).toNat : ℕ) : ℤ) = p.2 := by omega
    have hok := growHeight_ok okH hiV cell.1 wN cell.2 ((hiV - cell.2).toNat + 1) 1
      (p.2 - cell.2).toNat (by omega) (by rw [← hhdef]; omega)
    rw [hj] at hok
    have hrow' := (rowOk_spec okH cell.1 wN p.2).mp hok.1
    have hk : cell.1 + (((p.1 - cell.1).toNat : ℕ) : ℤ) = p.1 := by omega
    have := hrow' (p.1 - cell.1).toNat (by omega)
    rw [hk] at this
    rw [hokH] at this
    obtain ⟨h1, h2⟩ := Bool.and_eq_true_iff.mp this
    have hpair : p = (p.1, p.2) := rfl
    rw [hpair]
    refine ⟨h1, ?_⟩
    simpa using h2

theorem greedyStep_inv (m : ℤ → ℤ → Bool) (hiU hiV : ℤ)
    (st : List Rect × Finset (ℤ × ℤ)) (cell : ℤ × ℤ)
    (hinv : greedyInv m st) :
    greedyInv m (greedyStep m hiU hiV st cell) := by
  unfold greedyStep
  by_cases hc : (m cell.1 cell.2 && !(decide (cell ∈ st.2))) = true
  · obtain ⟨hm, hnp'⟩ := Bool.and_eq_true_iff.mp hc
    have hnp : cell ∉ st.2 := by simpa using hnp'
    simp only [if_pos hc]
    obtain ⟨hi1, hi2, hi3, hi4⟩ := hinv
    set okW : ℤ → Bool := fun x => m x cell.2 && !(decide ((x, cell.2) ∈ st.2)) with hokW
    set okH : ℤ → ℤ → Bool := fun x y => m x y && !(decide ((x, y) ∈ st.2)) with hokH
    set wN : ℕ := growWidth okW hiU cell.1 1 ((hiU - cell.1).toNat + 1) with hwdef
    set hN : ℕ := growHeight okH hiV cell.1 wN cell.2 1 ((hiV - cell.2).toNat + 1) with hhdef
    set r : Rect := ⟨cell.1, cell.2, wN, hN⟩ with hrdef
    have hcells : ∀ p ∈ rectCells r, m p.1 p.2 = true ∧ p ∉ st.2 := by
      intro p hp
      exact grown_cells m hiU hiV st.2 cell hm hnp p hp
    have hanchor : cell ∈ rectCells r := by
      rw [hrdef, mem_rectCells_mk]
      have hw1 : 1 ≤ wN := growWidth_ge okW hiU cell.1 _ 1
      have hh1 : 1 ≤ hN := growHeight_ge okH hiV cell.1 wN cell.2 _ 1
      refine ⟨le_refl _, by omega, le_refl _, by omega⟩
    refine ⟨?_, ?_, ?_, ?_⟩
    · intro p
      rw [Finset.mem_union, hi1 p]
      simp only [List.mem_append, List.mem_singleton]
      constructor
      · rintro (⟨r', hr', hpr'⟩ | hpr)
        · exact ⟨r', Or.inl hr', hpr'⟩
        · exact ⟨r, Or.inr rfl, hpr⟩
      · rintro ⟨r', hr' | rfl, hpr'⟩
        · exact Or.inl ⟨r', hr', hpr'⟩
        · exact Or.inr hpr'
    · intro r' hr' p hpr'
      rcases List.mem_append.mp hr' with hold | hnew
      · exact hi2 r' hold p hpr'
      · rw [List.mem_singleton.mp hnew] at hpr'
        exact (hcells p hpr').1
    · rw [List.pairwise_append]
      refine ⟨hi3, List.pairwise_singleton _ _, ?_⟩
      intro x hx y hy
      rw [List.mem_singleton.mp hy]
      rw [Finset.disjoint_left]
      intro q hqx hqr
      exact (hcells q hqr).2 ((hi1 q).mpr ⟨x, hx, hqx⟩)
    · show (st.1 ++ [r]).length ≤ (st.2 ∪ rectCells r).card
      rw [List.length_append, List.length_singleton]
      have hlt : st.2.card < (st.2 ∪ rectCells r).card := by
        refine Finset.card_lt_card ?_
        rw [Finset.ssubset_iff_of_subset Finset.subset_union_left]
        exact ⟨cell, Finset.mem_union_right _ hanchor, hnp⟩
      omega
  · simp only [if_neg hc]
    exact hinv

theorem greedyStep_mono (m : ℤ → ℤ → Bool) (hiU hiV : ℤ)
    (st : List Rect × Finset (ℤ × ℤ)) (cell : ℤ × ℤ) :
    st.2 ⊆ (greedyStep m hiU hiV st cell).2 := by
  unfold greedyStep
  by_cases hc : (m cell.1 cell.2 && !(decide (cell ∈ st.2))) = true
  · simp only [if_pos hc]
    exact Finset.subset_union_left
  · simp only [if_neg hc]
    exact subset_rfl

theorem greedyStep_self (m : ℤ → ℤ → Bool) (hiU hiV : ℤ)
    (st : List Rect × Finset (ℤ × ℤ)) (cell : ℤ × ℤ)
    (hm : m cell.1 cell.2 = true) :
    cell ∈ (greedyStep m hiU hiV st cell).2 := by
  unfold greedyStep
  by_cases hc : (m cell.1 cell.2 && !(decide (cell ∈ st.2))) = true
  · simp only [if_pos hc]
    refine Finset.mem_union_right _ ?_
    rw [mem_rectCells_mk]
    have hw1 : 1 ≤ growWidth (fun x => m x cell.2 && !(decide ((x, cell.2) ∈ st.2)))
        hiU cell.1 1 ((hiU - cell.1).toNat + 1) :=
      growWidth_ge _ hiU cell.1 _ 1
    have hh1 : 1 ≤ growHeight (fun x y => m x y && !(decide ((x, y) ∈ st.2))) hiV cell.1
        (growWidth (fun x => m x cell.2 && !(decide ((x, cell.2) ∈ st.2)))
          hiU cell.1 1 ((hiU - cell.1).toNat + 1)) cell.2 1 ((hiV - cell.2).toNat + 1) :=
      growHeight_ge _ hiV cell.1 _ cell.2 _ 1
    refine ⟨le_refl _, by omega, le_refl _, by omega⟩
  · simp only [if_neg hc]
    by_cases hp : cell ∈ st.2
    · exact hp
    · exfalso
      apply hc
      rw [hm]
      simp [hp]

theorem greedyFold_mono (m : ℤ → ℤ → Bool) (hiU hiV : ℤ)
    (l : List (ℤ × ℤ)) : ∀ st : List Rect × Finset (ℤ × ℤ),
    st.2 ⊆ ((l.foldl (greedyStep m hiU hiV) st)).2 := by
  induction l with
  | nil => exact fun st => subset_rfl
  | cons a t ih =>
    intro st
    rw [List.foldl_cons]
    exact (greedyStep_mono m hiU hiV st a).trans (ih _)

theorem greedyFold_covers (m : ℤ → ℤ → Bool) (hiU hiV : ℤ)
    (l : List (ℤ × ℤ)) (p : ℤ × ℤ) (hpl : p ∈ l) (hm : m p.1 p.2 = true) :
    ∀ st : List Rect × Finset (ℤ × ℤ),
    p ∈ ((l.foldl (greedyStep m hiU hiV) st)).2 := by
  induction l with
  | nil => cases hpl
  | cons a t ih =>
    intro st
    rw [List.foldl_cons]
    rcases List.mem_cons.mp hpl with rfl | hpt
    · exact greedyFold_mono m hiU hiV t _ (greedyStep_self m hiU hiV st p hm)
    · exact ih hpt _

theorem greedyFold_inv (m : ℤ → ℤ → Bool) (hiU hiV : ℤ)
    (l : List (ℤ × ℤ)) : ∀ st : List Rect × Finset (ℤ × ℤ),
    greedyInv m st → greedyInv m (l.foldl (greedyStep m hiU hiV) st) := by
  induction l with
  | nil => exact fun st hst => hst
  | cons a t ih =>
    intro st hst
    rw [List.foldl_cons]
    exact ih _ (greedyStep_inv m hiU hiV st a hst)

/-- The greedy rectangle cover of a bounded mask: exact cover (every
mask cell covered, nothing else covered), pairwise disjoint rectangles,
and no more rectangles than mask cells. -/
theorem greedySlice_spec (m : ℤ → ℤ → Bool) (loU hiU loV hiV : ℤ)
    (hmb : ∀ u v, m u v = true → loU ≤ u ∧ u ≤ hiU ∧ loV ≤ v ∧ v ≤ hiV) :
    (∀ p : ℤ × ℤ,
      (∃ r ∈ greedySlice m loU hiU loV hiV, p ∈ rectCells r) ↔ m p.1 p.2 = true) ∧
    List.Pairwise (fun r r' => Disjoint (rectCells r) (rectCells r'))
      (greedySlice m loU hiU loV hiV) ∧
    (greedySlice m loU hiU loV hiV).length ≤
      (((Finset.Icc loU hiU) ×ˢ (Finset.Icc loV hiV)).filter
        (fun p => m p.1 p.2)).card := by
  have hinv := greedyFold_inv m hiU hiV (rowMajor loU hiU loV hiV) ([], ∅)
    (greedyInv_init m)
  obtain ⟨hi1, hi2, hi3, hi4⟩ := hinv
  have hcover : ∀ p : ℤ × ℤ,
      (∃ r ∈ greedySlice m loU hiU loV hiV, p ∈ rectCells r) ↔ m p.1 p.2 = true := by
    intro p
    constructor
    · rintro ⟨r, hr, hpr⟩
      exact hi2 r hr p hpr
    · intro hm
      obtain ⟨h1, h2, h3, h4⟩ := hmb p.1 p.2 hm
      have hmem : p ∈ rowMajor loU hiU loV hiV :=
        (mem_rowMajor loU hiU loV hiV p).mpr ⟨h1, h2, h3, h4⟩
      exact (hi1 p).mp (greedyFold_covers m hiU hiV _ p hmem hm ([], ∅))
  refine ⟨hcover, hi3, ?_⟩
  have hset : ((rowMajor loU hiU loV hiV).foldl (greedyStep m hiU hiV) ([], ∅)).2 =
      ((Finset.Icc loU hiU) ×ˢ (Finset.Icc loV hiV)).filter (fun p => m p.1 p.2) := by
    ext q
    rw [Finset.mem_filter, Finset.mem_product, Finset.mem_Icc, Finset.mem_Icc, hi1 q]
    constructor
    · intro hq
      have hm := (hcover q).mp hq
      obtain ⟨h1, h2, h3, h4⟩ := hmb q.1 q.2 hm
      exact ⟨⟨⟨h1, h2⟩, h3, h4⟩, hm⟩
    · intro ⟨_, hm⟩
      exact (hcover q).mpr hm
  rw [← hset]
  exact hi4

/-- C1: for every input block set, neighbor predicate, face direction and
depth slice of `createMeshGeometry`'s loops, the greedy cover of the
slice's visibility mask is exact — every visible mask cell is covered by
exactly one emitted quad (the quads are pairwise disjoint and nothing
outside the mask is covered) — and the number of emitted quads is at most
the number of visible unit faces of the slice. -/
theorem c1_greedy_covering (blocks : List Coord) (nc : Coord → Bool)
    (f : FaceData) (d : ℤ) :
    (∀ p : ℤ × ℤ,
      (∃ r ∈ greedySlice
          (sliceMask (fun c => blocks.any (fun bl => decide (bl = c))) nc
            (boundsOf blocks) f d)
          (axisMin (boundsOf blocks) f.uA) (axisMax (boundsOf blocks) f.uA)
          (axisMin (boundsOf blocks) f.vA) (axisMax (boundsOf blocks) f.vA),
        p ∈ rectCells r) ↔
      sliceMask (fun c => blocks.any (fun bl => decide (bl = c))) nc
        (boundsOf blocks) f d p.1 p.2 = true) ∧
    List.Pairwise (fun r r' => Disjoint (rectCells r) (rectCells r'))
      (greedySlice
        (sliceMask (fun c => blocks.any (fun bl => decide (bl = c))) nc
          (boundsOf blocks) f d)
        (axisMin (boundsOf blocks) f.uA) (axisMax (boundsOf blocks) f.uA)
        (axisMin (boundsOf blocks) f.vA) (axisMax (boundsOf blocks) f.vA)) ∧
    (greedySlice
        (sliceMask (fun c => blocks.any (fun bl => decide (bl = c))) nc
          (boundsOf blocks) f d)
        (axisMin (boundsOf blocks) f.uA) (axisMax (boundsOf blocks) f.uA)
        (axisMin (boundsOf blocks) f.vA) (axisMax (boundsOf blocks) f.vA)).length ≤
      (((Finset.Icc (axisMin (boundsOf blocks) f.uA) (axisMax (boundsOf blocks) f.uA)) ×ˢ
        (Finset.Icc (axisMin (boundsOf blocks) f.vA) (axisMax (boundsOf blocks) f.vA))).filter
        (fun p => sliceMask (fun c => blocks.any (fun bl => decide (bl = c))) nc
          (boundsOf blocks) f d p.1 p.2)).card := by
  apply greedySlice_spec
  intro u v hm
  unfold sliceMask at hm
  obtain ⟨hm', _⟩ := Bool.and_eq_true_iff.mp hm
  obtain ⟨hm'', _⟩ := Bool.and_eq_true_iff.mp hm'
  obtain ⟨hm3, h4⟩ := Bool.and_eq_true_iff.mp hm''
  obtain ⟨hm4, h3⟩ := Bool.and_eq_true_iff.mp hm3
  obtain ⟨h1, h2⟩ := Bool.and_eq_true_iff.mp hm4
  exact ⟨of_decide_eq_true h1, of_decide_eq_true h2,
    of_decide_eq_true h3, of_decide_eq_true h4⟩

/-! ## Claim C9 — `unloadChunk` and re-entry -/

/-- The specification's unload contract: unloading touches only geometry
and registration (the block store is unchanged), and a later re-entered
chunk is rebuilt from the already-materialized block data without
regenerating terrain — i.e. unloading makes no difference to the block
store produced by any later `updateChunks` call. -/
def SpecClaimC9 : Prop :=
  ∀ (hf : HeightFn) (seed : ℤ) (R : ℕ) (w : World) (cx cz : ℤ) (px pz : ℤ),
    (unloadChunk w cx cz).store = w.store ∧
    (updateChunks hf seed R (unloadChunk w cx cz) px pz).store =
      (updateChunks hf seed R w px pz).store

/-- C9 amended (the true half): `unloadChunk` preserves every block store
entry — `getBlock`, `isBlockAt` and `getBlockCount` are unchanged — and
drops exactly the chunk's registration. -/
theorem c9_amended (w : World) (cx cz : ℤ) (c : Coord) :
    (unloadChunk w cx cz).store = w.store ∧
    (unloadChunk w cx cz).getBlock c = w.getBlock c ∧
    (unloadChunk w cx cz).getBlockCount = w.getBlockCount ∧
    isBlockAt (unloadChunk w cx cz).store c.1 c.2.1 c.2.2 =
      isBlockAt w.store c.1 c.2.1 c.2.2 ∧
    (unloadChunk w cx cz).hasChunk (cx, cz) = false ∧
    (∀ q : ℤ × ℤ, q ≠ (cx, cz) →
      ((unloadChunk w cx cz).hasChunk q = w.hasChunk q)) := by
  have hstore : (unloadChunk w cx cz).store = w.store := by
    unfold unloadChunk
    by_cases h : w.hasChunk (cx, cz) = true
    · rw [if_pos h]
    · rw [if_neg h]
  refine ⟨hstore, by rw [World.getBlock, hstore]; rfl,
    by rw [World.getBlockCount, hstore]; rfl,
    by rw [hstore], ?_, ?_⟩
  · unfold unloadChunk
    by_cases h : w.hasChunk (cx, cz) = true
    · rw [if_pos h]
      rw [Bool.eq_false_iff]
      intro hc
      have := (World.hasChunk_iff_mem _ _).mp hc
      have := (List.mem_filter.mp this).2
      simp at this
    · rw [if_neg h]
      exact Bool.eq_false_iff.mpr h
  · intro q hq
    unfold unloadChunk
    by_cases h : w.hasChunk (cx, cz) = true
    · rw [if_pos h]
      cases hb : w.hasChunk q with
      | true =>
        rw [World.hasChunk_iff_mem]
        apply List.mem_filter.mpr
        exact ⟨(World.hasChunk_iff_mem _ _).mp hb, by simpa using hq⟩
      | false =>
        rw [Bool.eq_false_iff]
        intro hc
        have := (List.mem_filter.mp ((World.hasChunk_iff_mem _ _).mp hc)).1
        rw [← World.hasChunk_iff_mem] at this
        rw [this] at hb
        cases hb
    · rw [if_neg h]

/-- C9 amended, witnessed: unloading the single loaded chunk of a
one-block world keeps its store and drops no other registration. -/
theorem c9_amended_witness :
    (unloadChunk ⟨[(((0 : ℤ), (0 : ℤ), (0 : ℤ)), BlockType.stone)],
        [((0 : ℤ), (0 : ℤ))]⟩ 0 0).store =
      [(((0 : ℤ), (0 : ℤ), (0 : ℤ)), BlockType.stone)] ∧
    (unloadChunk ⟨[(((0 : ℤ), (0 : ℤ), (0 : ℤ)), BlockType.stone)],
        [((0 : ℤ), (0 : ℤ))]⟩ 0 0).hasChunk ((1 : ℤ), (0 : ℤ)) =
      World.hasChunk ⟨[(((0 : ℤ), (0 : ℤ), (0 : ℤ)), BlockType.stone)],
        [((0 : ℤ), (0 : ℤ))]⟩ ((1 : ℤ), (0 : ℤ)) := by
  have h := c9_amended ⟨[(((0 : ℤ), (0 : ℤ), (0 : ℤ)), BlockType.stone)],
    [((0 : ℤ), (0 : ℤ))]⟩ 0 0 ((0 : ℤ), (0 : ℤ), (0 : ℤ))
  exact ⟨h.1, h.2.2.2.2.2 (1, 0) (by decide)⟩

theorem squareList_zero :
    squareList ((0 : ℤ).fdiv 16) ((0 : ℤ).fdiv 16) 0 = [((0 : ℤ), (0 : ℤ))] := by
  decide

/-- The store after `updateChunks` is the store after the load fold (the
unload phase touches registration only). -/
theorem updateChunks_store (hf : HeightFn) (seed : ℤ) (R : ℕ) (w : World)
    (px pz : ℤ) :
    (updateChunks hf seed R w px pz).store =
      (genFold hf seed w (squareList (px.fdiv 16) (pz.fdiv 16) R)).store := by
  rw [updateChunks_eq_genFold]

/-- For a world holding exactly the registered chunk `(0, 0)`,
`updateChunks` at the origin with render distance `0` touches nothing:
the block store comes back unchanged (whatever it holds). -/
theorem noregen_without_unload (s : Store) :
    (updateChunks (fun _ _ => 1) 0 0 ⟨s, [((0 : ℤ), (0 : ℤ))]⟩ 0 0).store = s := by
  rw [updateChunks_eq_genFold, squareList_zero,
    genFold_of_all_present _ _ _ _ (fun q hq => by
      rcases List.mem_singleton.mp hq with rfl
      exact (World.hasChunk_iff_mem _ _).mpr (List.mem_singleton.mpr rfl))]

/-- For the same world after `unloadChunk`, re-entry regenerates chunk
`(0, 0)` from scratch: on the all-ones height map the origin cell comes
back as stone no matter what the store held. -/
theorem regen_after_unload (s : Store) :
    (updateChunks (fun _ _ => 1) 0 0
        (unloadChunk ⟨s, [((0 : ℤ), (0 : ℤ))]⟩ 0 0) 0 0).store.get
      ((0 : ℤ), (0 : ℤ), (0 : ℤ)) = some BlockType.stone := by
  have hun : unloadChunk ⟨s, [((0 : ℤ), (0 : ℤ))]⟩ 0 0 =
      ⟨s, ([((0 : ℤ), (0 : ℤ))].filter (fun q => ¬ q = ((0 : ℤ), (0 : ℤ))))⟩ := by
    unfold unloadChunk
    rw [if_pos ((World.hasChunk_iff_mem _ _).mpr (List.mem_singleton.mpr rfl))]
  have hfil : ([((0 : ℤ), (0 : ℤ))].filter (fun q => ¬ q = ((0 : ℤ), (0 : ℤ)))) =
      ([] : List (ℤ × ℤ)) := by decide
  rw [hun, hfil, updateChunks_store, squareList_zero]
  have hstep : genFold (fun _ _ => 1) 0 ⟨s, []⟩ [((0 : ℤ), (0 : ℤ))] =
      generateChunk (fun _ _ => 1) 0 ⟨s, []⟩ 0 0 := by
    unfold genFold
    rw [List.foldl_cons, List.foldl_nil,
      if_neg (show ¬ World.hasChunk ⟨s, []⟩ ((0 : ℤ), (0 : ℤ)) = true from by
        intro hc
        cases (World.hasChunk_iff_mem _ _).mp hc)]
  rw [hstep]
  exact genChunk_one_origin 0 ⟨s, []⟩

/-- C9 counterexample: the second half of the claim fails.  Generate chunk
`(0, 0)` on the all-ones height map, mine the origin block, then leave:
unloading keeps the block store, but on re-entry `updateChunks` sees the
chunk unregistered and calls `generateChunk` again — terrain IS
regenerated, and the mined stone block reappears; without the unload the
mined cell stays empty. -/
theorem c9_counterexample : ¬ SpecClaimC9 := by
  intro hcl
  -- the world after first generating chunk (0, 0) from nothing ...
  have hgen : genFold (fun _ _ => 1) 0 ⟨[], []⟩ [((0 : ℤ), (0 : ℤ))] =
      generateChunk (fun _ _ => 1) 0 ⟨[], []⟩ 0 0 := rfl
  have hch : (generateChunk (fun _ _ => 1) 0 ⟨[], []⟩ 0 0).chunks =
      [((0 : ℤ), (0 : ℤ))] := by rw [generateChunk_chunks]; rfl
  have hw0 : updateChunks (fun _ _ => 1) 0 0 ⟨[], []⟩ 0 0 =
      { store := (generateChunk (fun _ _ => 1) 0 ⟨[], []⟩ 0 0).store,
        chunks := [((0 : ℤ), (0 : ℤ))] } := by
    rw [updateChunks_eq_genFold, squareList_zero, hgen]
    have : ((generateChunk (fun _ _ => 1) 0 ⟨[], []⟩ 0 0).chunks).filter
        (fun q => ¬ (|q.1 - (0 : ℤ).fdiv 16| > ((0 : ℕ) : ℤ) + 2 ∨
          |q.2 - (0 : ℤ).fdiv 16| > ((0 : ℕ) : ℤ) + 2)) = [((0 : ℤ), (0 : ℤ))] := by
      rw [hch]
      decide
    rw [this]
  -- ... then mine the origin block: the reached world is
  -- ⟨(generateChunk … ⟨[], []⟩ 0 0).store.erase (0,0,0), [(0,0)]⟩
  have hG0 : (generateChunk (fun _ _ => 1) 0 ⟨[], []⟩ 0 0).store.get
      ((0 : ℤ), (0 : ℤ), (0 : ℤ)) = some BlockType.stone :=
    genChunk_one_origin 0 ⟨[], []⟩
  have hkey : (updateChunks (fun _ _ => 1) 0 0 ⟨[], []⟩ 0 0).store.hasKey
      ((0 : ℤ), (0 : ℤ), (0 : ℤ)) = true := by
    rw [hw0]
    exact (Store.hasKey_iff_get _ _).mpr (by rw [hG0]; rfl)
  have hw1 : (removeBlock (updateChunks (fun _ _ => 1) 0 0 ⟨[], []⟩ 0 0)
      ((0 : ℤ), (0 : ℤ), (0 : ℤ))).1 =
      { store := (generateChunk (fun _ _ => 1) 0 ⟨[], []⟩ 0 0).store.erase
          ((0 : ℤ), (0 : ℤ), (0 : ℤ)),
        chunks := [((0 : ℤ), (0 : ℤ))] } := by
    unfold removeBlock
    rw [if_neg (by rw [hkey]; exact fun hc => hc rfl), hw0]
  -- the claim's two `updateChunks` runs on the mined world
  obtain ⟨-, h2⟩ := hcl (fun _ _ => 1) 0 0
    ⟨(generateChunk (fun _ _ => 1) 0 ⟨[], []⟩ 0 0).store.erase
        ((0 : ℤ), (0 : ℤ), (0 : ℤ)), [((0 : ℤ), (0 : ℤ))]⟩ 0 0 0 0
  have hrhs : (updateChunks (fun _ _ => 1) 0 0
      ⟨(generateChunk (fun _ _ => 1) 0 ⟨[], []⟩ 0 0).store.erase
        ((0 : ℤ), (0 : ℤ), (0 : ℤ)), [((0 : ℤ), (0 : ℤ))]⟩ 0 0).store.get
      ((0 : ℤ), (0 : ℤ), (0 : ℤ)) = none := by
    rw [noregen_without_unload, Store.get_erase, if_pos rfl]
  have hlhs := regen_after_unload
    ((generateChunk (fun _ _ => 1) 0 ⟨[], []⟩ 0 0).store.erase
      ((0 : ℤ), (0 : ℤ), (0 : ℤ)))
  rw [h2, hrhs] at hlhs
  exact Option.noConfusion hlhs

end Vibecraft
